import Mathlib

/-!
A verification development for the core EOPatch data container:
the feature-type taxonomy, the typed feature collections with
per-insertion validation and lazy materialization, the aggregate
EOPatch container with its addressing, deletion, copying and
timestamp-consolidation operations, and the merge algebra.

Definitions are shallow embeddings of the Python source in
`core/eolearn/core/constants.py` and `core/eolearn/core/eodata.py`.
Parts of the repository that are referenced but whose source is not
available (the `FeatureIO` placeholder internals, the
`merge_eopatches` engine, `is_discrete_type`) are modelled from the
specification; their doc comments say so.
-/

/-- The closed 13-member feature-type taxonomy, from
`constants.py`, `class FeatureType`. -/
inductive FeatureType where
  | DATA
  | MASK
  | SCALAR
  | LABEL
  | VECTOR
  | DATA_TIMELESS
  | MASK_TIMELESS
  | SCALAR_TIMELESS
  | LABEL_TIMELESS
  | VECTOR_TIMELESS
  | META_INFO
  | BBOX
  | TIMESTAMPS
deriving DecidableEq, Repr

/-- `FeatureType.is_spatial` from `constants.py`. -/
def FeatureType.is_spatial (ft : FeatureType) : Bool :=
  ft ∈ [FeatureType.DATA, FeatureType.MASK, FeatureType.VECTOR,
        FeatureType.DATA_TIMELESS, FeatureType.MASK_TIMELESS, FeatureType.VECTOR_TIMELESS]

/-- `FeatureType.is_temporal` from `constants.py`. -/
def FeatureType.is_temporal (ft : FeatureType) : Bool :=
  ft ∈ [FeatureType.DATA, FeatureType.MASK, FeatureType.SCALAR, FeatureType.LABEL,
        FeatureType.VECTOR, FeatureType.TIMESTAMPS]

/-- `FeatureType.is_discrete` from `constants.py`. -/
def FeatureType.is_discrete (ft : FeatureType) : Bool :=
  ft ∈ [FeatureType.MASK, FeatureType.MASK_TIMELESS, FeatureType.LABEL, FeatureType.LABEL_TIMELESS]

/-- `FeatureType.is_meta` from `constants.py`. -/
def FeatureType.is_meta (ft : FeatureType) : Bool :=
  ft ∈ [FeatureType.META_INFO, FeatureType.BBOX, FeatureType.TIMESTAMPS]

/-- `FeatureType.is_vector` from `constants.py`. -/
def FeatureType.is_vector (ft : FeatureType) : Bool :=
  ft ∈ [FeatureType.VECTOR, FeatureType.VECTOR_TIMELESS]

/-- `FeatureType.is_array` from `constants.py`. -/
def FeatureType.is_array (ft : FeatureType) : Bool :=
  ft ∈ [FeatureType.DATA, FeatureType.MASK, FeatureType.SCALAR, FeatureType.LABEL,
        FeatureType.DATA_TIMELESS, FeatureType.MASK_TIMELESS,
        FeatureType.SCALAR_TIMELESS, FeatureType.LABEL_TIMELESS]

/-- `FeatureType.ndim` from `constants.py`: expected numpy rank for
array feature types, `none` for the others. -/
def FeatureType.ndim (ft : FeatureType) : Option Nat :=
  if ft.is_array then
    match ft with
    | .DATA => some 4
    | .MASK => some 4
    | .SCALAR => some 2
    | .LABEL => some 2
    | .DATA_TIMELESS => some 3
    | .MASK_TIMELESS => some 3
    | .SCALAR_TIMELESS => some 1
    | .LABEL_TIMELESS => some 1
    | _ => none
  else none

/-- The error classes that the embedded operations can raise:
`ValueError` (validation and merge conflicts) and `KeyError`
(absent names), mirroring the Python exception classes used in
`eodata.py`. -/
inductive EOErr where
  | valueError
  | keyError
deriving DecidableEq, Repr

/-- Result of a fallible operation: a value or a raised error. -/
inductive Res (α : Type) where
  | ok (a : α)
  | err (e : EOErr)
deriving DecidableEq, Repr

/-- Numpy dtype classes relevant to validation: integer, boolean and
floating element types. -/
inductive DType where
  | intT
  | boolT
  | floatT
deriving DecidableEq, Repr

/-- Modelled from the spec: `is_discrete_type` (from
`utils/common.py`, not part of the available sources) accepts
exactly integer and boolean element types ("discrete kinds require
integer/boolean element type"). -/
def is_discrete_type (d : DType) : Bool :=
  d = DType.intT || d = DType.boolT

/-- A numpy array: element-type tag, shape, and the row-major
flattened data.  `ndim` is the length of the shape. -/
structure NDArray where
  dtype : DType
  shape : List Nat
  data : List Int
deriving DecidableEq, Repr

/-- `numpy.ndarray.ndim`. -/
def NDArray.ndimA (a : NDArray) : Nat := a.shape.length

/-- Number of elements of one time slice (the product of the shape
without the leading time axis). -/
def NDArray.stride (a : NDArray) : Nat := (a.shape.drop 1).prod

/-- The flattened data of the time slice at index `i`. -/
def NDArray.chunkAt (a : NDArray) (i : Nat) : List Int :=
  (a.data.drop (i * a.stride)).take a.stride

/-- `a[idxs, ...]`: selection of time slices at the given first-axis
indices, as used by `EOPatch.consolidate_timestamps`. -/
def NDArray.timeSelect (a : NDArray) (idxs : List Nat) : NDArray :=
  ⟨a.dtype, idxs.length :: a.shape.drop 1, (idxs.map a.chunkAt).flatten⟩

/-- The list of all time slices of an array (first-axis chunks). -/
def NDArray.timeChunks (a : NDArray) : List (List Int) :=
  (List.range (a.shape.headD 0)).map a.chunkAt

/-- A geometry table (`geopandas.GeoDataFrame`): column names and
rows, each row a tuple of integer-coded cells. -/
structure GeoDf where
  columns : List String
  rows : List (List Int)
deriving DecidableEq, Repr

/-- `gdf` restricted to the rows at the given positions (the model
of time-axis selection for temporal vector features). -/
def GeoDf.rowSelect (g : GeoDf) (idxs : List Nat) : GeoDf :=
  ⟨g.columns, idxs.map (fun i => g.rows.getD i [])⟩

/-- An opaque metadata value (META_INFO entries). -/
abbrev JsonVal := Int

/-- The opaque immutable bounding-box value (`sentinelhub.BBox`). -/
structure BBox where
  code : Nat
deriving DecidableEq, Repr

/-- A timestamp (`datetime.datetime`), modelled by its ordinal. -/
abbrev Timestamp := Nat

/-- `_FeatureDict.FORBIDDEN_CHARS` from `eodata.py`. -/
def forbiddenChars : List Char :=
  ['.', '/', '\\', '|', ';', ':', '\n', '\t']

/-- `_FeatureDict._check_feature_name`: the name must contain no
forbidden character and must not be empty.  `true` means the check
passes; `false` means a `ValueError` is raised. -/
def checkName (name : String) : Bool :=
  name.data.all (fun c => !(forbiddenChars.contains c)) && !(name == "")

/-- Modelled from the spec: the `FeatureIO` deferred placeholder
(from `eodata_io.py`, not part of the available sources): "a
placeholder holds a non-owning reference to the collaborator plus an
owned, write-once memo slot".  `collabRef` names the backing-store
descriptor; `loadedValue` is the memo slot. -/
structure FeatureIo (α : Type) where
  collabRef : Nat
  loadedValue : Option α
deriving DecidableEq, Repr

/-- Modelled from the spec: `FeatureIO.load` resolves the descriptor
through the backing store (`env`), memoizing the result ("safe to
invoke at most once per memo slot", resolution is idempotent).
Returns the value, the updated placeholder, and the number of
collaborator invocations performed (0 or 1). -/
def FeatureIo.load (env : Nat → α) (io : FeatureIo α) : α × FeatureIo α × Nat :=
  match io.loadedValue with
  | some v => (v, io, 0)
  | none => (env io.collabRef, ⟨io.collabRef, some (env io.collabRef)⟩, 1)

/-- One slot of a typed collection: a realized value or a deferred
placeholder. -/
inductive EntryVal (α : Type) where
  | realized (v : α)
  | deferred (io : FeatureIo α)
deriving DecidableEq, Repr

/-- A `_FeatureDict`: the feature-type tag and the named entries in
insertion order. -/
structure FeatureDict (α : Type) where
  featureType : FeatureType
  entries : List (String × EntryVal α)
deriving DecidableEq, Repr

/-- Association-list lookup (Python `dict` access by key). -/
def alookup [DecidableEq κ] : List (κ × β) → κ → Option β
  | [], _ => none
  | (k0, v0) :: rest, k => if k0 = k then some v0 else alookup rest k

/-- Association-list write: overwrites in place when the key exists
(keeping its position, as a Python `dict` does), appends otherwise. -/
def setAssoc [DecidableEq κ] : List (κ × β) → κ → β → List (κ × β)
  | [], k, v => [(k, v)]
  | (k0, v0) :: rest, k, v =>
    if k0 = k then (k, v) :: rest else (k0, v0) :: setAssoc rest k v

/-- Association-list deletion; `none` when the key is absent
(Python `del dict[k]` raising `KeyError`). -/
def delAssoc [DecidableEq κ] : List (κ × β) → κ → Option (List (κ × β))
  | [], _ => none
  | (k0, v0) :: rest, k =>
    if k0 = k then some rest else (delAssoc rest k).map (fun l => (k0, v0) :: l)

/-- `_FeatureDict.__setitem__`: a realized value is first parsed by
the subclass `_parse_feature_value` (`parse`, `none` meaning a raised
`ValueError`); a `FeatureIO` placeholder skips parsing; then the
feature name is checked; then the slot is written. -/
def fdSet (parse : α → String → Option α) (d : FeatureDict α) (name : String)
    (v : EntryVal α) : Res (FeatureDict α) :=
  match v with
  | .deferred io =>
    if checkName name then .ok ⟨d.featureType, setAssoc d.entries name (.deferred io)⟩
    else .err .valueError
  | .realized a =>
    match parse a name with
    | none => .err .valueError
    | some pa =>
      if checkName name then .ok ⟨d.featureType, setAssoc d.entries name (.realized pa)⟩
      else .err .valueError

/-- `_FeatureDict.__getitem__`: looks the name up (`KeyError` when
absent); when the stored value is a placeholder and `load` is set, it
is resolved through the collaborator and the parsed result is written
back into the same slot via `__setitem__`; the raw loaded value is
returned.  The third component counts collaborator invocations. -/
def fdGet (parse : α → String → Option α) (env : Nat → α) (d : FeatureDict α)
    (name : String) (load : Bool) : Res (EntryVal α × FeatureDict α × Nat) :=
  match alookup d.entries name with
  | none => .err .keyError
  | some (.realized v) => .ok (.realized v, d, 0)
  | some (.deferred io) =>
    if load then
      match io.load env with
      | (v, _, calls) =>
        match parse v name with
        | none => .err .valueError
        | some pv =>
          if checkName name then
            .ok (.realized v, ⟨d.featureType, setAssoc d.entries name (.realized pv)⟩, calls)
          else .err .valueError
    else .ok (.deferred io, d, 0)

/-- `_FeatureDictNumpy._parse_feature_value`: the array's rank must
equal the feature type's expected rank, and discrete feature types
require an integer or boolean dtype. -/
def parseNumpy (ft : FeatureType) (a : NDArray) (_name : String) : Option NDArray :=
  match ft.ndim with
  | none => none
  | some n =>
    if a.ndimA ≠ n then none
    else if ft.is_discrete && !(is_discrete_type a.dtype) then none
    else some a

/-- `_FeatureDictGeoDf._parse_feature_value` restricted to
`GeoDataFrame` inputs: for the temporal vector type the table must
contain the `TIMESTAMP` column. -/
def parseGeo (ft : FeatureType) (g : GeoDf) (_name : String) : Option GeoDf :=
  if ft = FeatureType.VECTOR && !(g.columns.contains "TIMESTAMP") then none
  else some g

/-- `_FeatureDictJson._parse_feature_value`: accepts anything. -/
def parseJson (_ft : FeatureType) (j : JsonVal) (_name : String) : Option JsonVal :=
  some j

example : checkName "band" = true := by decide
example : checkName "" = false := by decide
example : checkName "a/b" = false := by decide
example : parseNumpy .DATA ⟨.floatT, [2, 1, 1, 1], [5, 6]⟩ "x" =
    some ⟨.floatT, [2, 1, 1, 1], [5, 6]⟩ := by decide
example : parseNumpy .DATA ⟨.floatT, [2, 1], [5, 6]⟩ "x" = none := by decide
example : parseNumpy .MASK ⟨.floatT, [2, 1, 1, 1], [5, 6]⟩ "x" = none := by decide

/-- The aggregate `EOPatch` container from `eodata.py`: one typed
collection per dictionary feature type, the optional bounding box,
and the ordered timestamp sequence. -/
structure EOPatch where
  data : FeatureDict NDArray
  mask : FeatureDict NDArray
  scalar : FeatureDict NDArray
  label : FeatureDict NDArray
  vector : FeatureDict GeoDf
  data_timeless : FeatureDict NDArray
  mask_timeless : FeatureDict NDArray
  scalar_timeless : FeatureDict NDArray
  label_timeless : FeatureDict NDArray
  vector_timeless : FeatureDict GeoDf
  meta_info : FeatureDict JsonVal
  bbox : Option BBox
  timestamps : List Timestamp
deriving DecidableEq, Repr

/-- The backing-store collaborator: resolves per-entry descriptors to
concrete values, one resolver per payload family. -/
structure Env where
  arrE : Nat → NDArray
  geoE : Nat → GeoDf
  jsonE : Nat → JsonVal

/-- The value obtained by addressing an `EOPatch` by a feature type,
or by a (feature type, name) pair. -/
inductive EOVal where
  | fdN (d : FeatureDict NDArray)
  | fdG (d : FeatureDict GeoDf)
  | fdJ (d : FeatureDict JsonVal)
  | box (b : Option BBox)
  | times (ts : List Timestamp)
  | arrV (a : NDArray)
  | geoV (g : GeoDf)
  | jsonV (j : JsonVal)
  | arrIo (io : FeatureIo NDArray)
  | geoIo (io : FeatureIo GeoDf)
  | jsonIo (io : FeatureIo JsonVal)
deriving DecidableEq, Repr

/-- Helper for `EOPatch.getItem` on a numpy collection: delegates to
`_FeatureDict.__getitem__` with `load=True` and writes the updated
collection back into the patch. -/
def getN (env : Env) (p : EOPatch) (ft : FeatureType) (d : FeatureDict NDArray)
    (upd : FeatureDict NDArray → EOPatch) (name : Option String) : Res (EOVal × EOPatch) :=
  match name with
  | none => .ok (.fdN d, p)
  | some n =>
    match fdGet (parseNumpy ft) env.arrE d n true with
    | .err e => .err e
    | .ok (.realized v, d2, _) => .ok (.arrV v, upd d2)
    | .ok (.deferred io, d2, _) => .ok (.arrIo io, upd d2)

/-- Helper for `EOPatch.getItem` on a geometry collection. -/
def getG (env : Env) (p : EOPatch) (ft : FeatureType) (d : FeatureDict GeoDf)
    (upd : FeatureDict GeoDf → EOPatch) (name : Option String) : Res (EOVal × EOPatch) :=
  match name with
  | none => .ok (.fdG d, p)
  | some n =>
    match fdGet (parseGeo ft) env.geoE d n true with
    | .err e => .err e
    | .ok (.realized v, d2, _) => .ok (.geoV v, upd d2)
    | .ok (.deferred io, d2, _) => .ok (.geoIo io, upd d2)

/-- Helper for `EOPatch.getItem` on the metadata collection. -/
def getJ (env : Env) (p : EOPatch) (ft : FeatureType) (d : FeatureDict JsonVal)
    (upd : FeatureDict JsonVal → EOPatch) (name : Option String) : Res (EOVal × EOPatch) :=
  match name with
  | none => .ok (.fdJ d, p)
  | some n =>
    match fdGet (parseJson ft) env.jsonE d n true with
    | .err e => .err e
    | .ok (.realized v, d2, _) => .ok (.jsonV v, upd d2)
    | .ok (.deferred io, d2, _) => .ok (.jsonIo io, upd d2)

/-- `EOPatch.__getitem__` combined with `EOPatch.__getattribute__`:
a bare feature type yields its collection (or scalar value); a
(feature type, name) pair delegates to the collection only when the
attribute value is a `_FeatureDict` — for the scalar kinds `BBOX`
and `TIMESTAMPS` the name is ignored and the stored scalar is
returned.  Materialization may update the patch, which is returned
alongside the value. -/
def EOPatch.getItem (env : Env) (p : EOPatch) (ft : FeatureType) (name : Option String) :
    Res (EOVal × EOPatch) :=
  match ft with
  | .DATA => getN env p .DATA p.data (fun d => { p with data := d }) name
  | .MASK => getN env p .MASK p.mask (fun d => { p with mask := d }) name
  | .SCALAR => getN env p .SCALAR p.scalar (fun d => { p with scalar := d }) name
  | .LABEL => getN env p .LABEL p.label (fun d => { p with label := d }) name
  | .VECTOR => getG env p .VECTOR p.vector (fun d => { p with vector := d }) name
  | .DATA_TIMELESS =>
    getN env p .DATA_TIMELESS p.data_timeless (fun d => { p with data_timeless := d }) name
  | .MASK_TIMELESS =>
    getN env p .MASK_TIMELESS p.mask_timeless (fun d => { p with mask_timeless := d }) name
  | .SCALAR_TIMELESS =>
    getN env p .SCALAR_TIMELESS p.scalar_timeless (fun d => { p with scalar_timeless := d }) name
  | .LABEL_TIMELESS =>
    getN env p .LABEL_TIMELESS p.label_timeless (fun d => { p with label_timeless := d }) name
  | .VECTOR_TIMELESS =>
    getG env p .VECTOR_TIMELESS p.vector_timeless (fun d => { p with vector_timeless := d }) name
  | .META_INFO => getJ env p .META_INFO p.meta_info (fun d => { p with meta_info := d }) name
  | .BBOX => .ok (.box p.bbox, p)
  | .TIMESTAMPS => .ok (.times p.timestamps, p)

/-- `EOPatch.__delitem__` on a bare feature type: deleting `BBOX`
raises `ValueError`, deleting `TIMESTAMPS` resets the sequence to
empty, deleting a dictionary feature type replaces its collection by
a fresh empty one. -/
def EOPatch.delBare (p : EOPatch) (ft : FeatureType) : Res EOPatch :=
  match ft with
  | .BBOX => .err .valueError
  | .TIMESTAMPS => .ok { p with timestamps := [] }
  | .DATA => .ok { p with data := ⟨.DATA, []⟩ }
  | .MASK => .ok { p with mask := ⟨.MASK, []⟩ }
  | .SCALAR => .ok { p with scalar := ⟨.SCALAR, []⟩ }
  | .LABEL => .ok { p with label := ⟨.LABEL, []⟩ }
  | .VECTOR => .ok { p with vector := ⟨.VECTOR, []⟩ }
  | .DATA_TIMELESS => .ok { p with data_timeless := ⟨.DATA_TIMELESS, []⟩ }
  | .MASK_TIMELESS => .ok { p with mask_timeless := ⟨.MASK_TIMELESS, []⟩ }
  | .SCALAR_TIMELESS => .ok { p with scalar_timeless := ⟨.SCALAR_TIMELESS, []⟩ }
  | .LABEL_TIMELESS => .ok { p with label_timeless := ⟨.LABEL_TIMELESS, []⟩ }
  | .VECTOR_TIMELESS => .ok { p with vector_timeless := ⟨.VECTOR_TIMELESS, []⟩ }
  | .META_INFO => .ok { p with meta_info := ⟨.META_INFO, []⟩ }

/-- Deletion of a single named entry from a typed collection
(`del self[feature_type][feature_name]`): `KeyError` when absent. -/
def delEntry (d : FeatureDict α) (name : String) : Res (FeatureDict α) :=
  match delAssoc d.entries name with
  | none => .err .keyError
  | some es => .ok ⟨d.featureType, es⟩

/-- Lift a `Res` on a collection into a `Res` on the patch. -/
def mapRes (f : α → β) : Res α → Res β
  | .ok a => .ok (f a)
  | .err e => .err e

/-- `EOPatch.__delitem__` on a (feature type, name) pair: for `BBOX`
and `TIMESTAMPS` the pair is collapsed to the bare feature type
(the name is ignored); otherwise the single named entry is removed
from that collection. -/
def EOPatch.delPair (p : EOPatch) (ft : FeatureType) (name : String) : Res EOPatch :=
  if ft = .BBOX || ft = .TIMESTAMPS then p.delBare ft
  else
    match ft with
    | .DATA => mapRes (fun d => { p with data := d }) (delEntry p.data name)
    | .MASK => mapRes (fun d => { p with mask := d }) (delEntry p.mask name)
    | .SCALAR => mapRes (fun d => { p with scalar := d }) (delEntry p.scalar name)
    | .LABEL => mapRes (fun d => { p with label := d }) (delEntry p.label name)
    | .VECTOR => mapRes (fun d => { p with vector := d }) (delEntry p.vector name)
    | .DATA_TIMELESS =>
      mapRes (fun d => { p with data_timeless := d }) (delEntry p.data_timeless name)
    | .MASK_TIMELESS =>
      mapRes (fun d => { p with mask_timeless := d }) (delEntry p.mask_timeless name)
    | .SCALAR_TIMELESS =>
      mapRes (fun d => { p with scalar_timeless := d }) (delEntry p.scalar_timeless name)
    | .LABEL_TIMELESS =>
      mapRes (fun d => { p with label_timeless := d }) (delEntry p.label_timeless name)
    | .VECTOR_TIMELESS =>
      mapRes (fun d => { p with vector_timeless := d }) (delEntry p.vector_timeless name)
    | .META_INFO => mapRes (fun d => { p with meta_info := d }) (delEntry p.meta_info name)
    | _ => .err .keyError

/-- First-occurrence index of a timestamp in a list
(`list.index` in Python; unspecified 0-based fallback past the end,
never reached for members). -/
def idxOfT (t : Timestamp) : List Timestamp → Nat
  | [] => 0
  | x :: xs => if x = t then 0 else idxOfT t xs + 1

/-- Write-back of one consolidated numpy collection: every entry must
be realized (a placeholder cannot be sliced), its time-axis selection
is re-validated and stored through `__setitem__`. -/
def consDictN (ft : FeatureType) (goodIdxs : List Nat) :
    List (String × EntryVal NDArray) → Res (List (String × EntryVal NDArray))
  | [] => .ok []
  | (_, .deferred _) :: _ => .err .valueError
  | (n, .realized a) :: rest =>
    match parseNumpy ft (a.timeSelect goodIdxs) n with
    | none => .err .valueError
    | some a2 =>
      if checkName n then
        match consDictN ft goodIdxs rest with
        | .err e => .err e
        | .ok rest2 => .ok ((n, EntryVal.realized a2) :: rest2)
      else .err .valueError

/-- Write-back of the consolidated temporal vector collection; the
time-axis selection of a table keeps the rows at the selected
positions. -/
def consDictG (ft : FeatureType) (goodIdxs : List Nat) :
    List (String × EntryVal GeoDf) → Res (List (String × EntryVal GeoDf))
  | [] => .ok []
  | (_, .deferred _) :: _ => .err .valueError
  | (n, .realized g) :: rest =>
    match parseGeo ft (g.rowSelect goodIdxs) n with
    | none => .err .valueError
    | some g2 =>
      if checkName n then
        match consDictG ft goodIdxs rest with
        | .err e => .err e
        | .ok rest2 => .ok ((n, EntryVal.realized g2) :: rest2)
      else .err .valueError

/-- The set of own timestamps absent from `valid`
(`set(self.timestamps).difference(timestamps)`), as a duplicate-free
list read up to membership. -/
def removedOf (ts valid : List Timestamp) : List Timestamp :=
  (ts.filter (fun t => !(valid.contains t))).dedup

/-- The first-occurrence indices of the removed timestamps. -/
def removeIdxsOf (ts valid : List Timestamp) : List Nat :=
  (removedOf ts valid).map (fun t => idxOfT t ts)

/-- The kept (non-removed) positions of the timestamp sequence. -/
def goodIdxsOf (ts valid : List Timestamp) : List Nat :=
  (List.range ts.length).filter (fun i => !((removeIdxsOf ts valid).contains i))

/-- The kept timestamps, in order. -/
def goodTimestampsOf (ts valid : List Timestamp) : List Timestamp :=
  (goodIdxsOf ts valid).map (fun i => ts.getD i 0)

/-- `EOPatch.consolidate_timestamps`: computes the set of own
timestamps absent from `valid`, their first-occurrence indices, the
complementary kept indices and kept timestamps; removes the time
slices at the removed indices from every temporal non-meta entry
(DATA, MASK, SCALAR, LABEL, VECTOR); truncates the timestamp
sequence; returns the removed set (a list standing for the set, read
up to membership). -/
def EOPatch.consolidate_timestamps (p : EOPatch) (valid : List Timestamp) :
    Res (EOPatch × List Timestamp) :=
  match consDictN .DATA (goodIdxsOf p.timestamps valid) p.data.entries with
  | .err e => .err e
  | .ok d2 =>
  match consDictN .MASK (goodIdxsOf p.timestamps valid) p.mask.entries with
  | .err e => .err e
  | .ok m2 =>
  match consDictN .SCALAR (goodIdxsOf p.timestamps valid) p.scalar.entries with
  | .err e => .err e
  | .ok s2 =>
  match consDictN .LABEL (goodIdxsOf p.timestamps valid) p.label.entries with
  | .err e => .err e
  | .ok l2 =>
  match consDictG .VECTOR (goodIdxsOf p.timestamps valid) p.vector.entries with
  | .err e => .err e
  | .ok v2 =>
    .ok ({ p with
            data := ⟨p.data.featureType, d2⟩,
            mask := ⟨p.mask.featureType, m2⟩,
            scalar := ⟨p.scalar.featureType, s2⟩,
            label := ⟨p.label.featureType, l2⟩,
            vector := ⟨p.vector.featureType, v2⟩,
            timestamps := goodTimestampsOf p.timestamps valid }, removedOf p.timestamps valid)

/-- Stable insertion of an element into a list, before the first
position where `le x y` holds. -/
def insSortedBy (le : α → α → Bool) (x : α) : List α → List α
  | [] => [x]
  | y :: ys => if le x y then x :: y :: ys else y :: insSortedBy le x ys

/-- Stable insertion sort with respect to `le`. -/
def insSortBy (le : α → α → Bool) : List α → List α
  | [] => []
  | x :: xs => insSortedBy le x (insSortBy le xs)

/-- Grouping of adjacent pairs with equal timestamp key: turns a
time-sorted slice list into per-timestamp groups. -/
def groupRuns : List (Timestamp × List Int) → List (Timestamp × List (List Int))
  | [] => []
  | (t, c) :: rest =>
    match groupRuns rest with
    | [] => [(t, [c])]
    | (t2, g) :: gs =>
      if t = t2 then (t, c :: g) :: gs else (t, [c]) :: (t2, g) :: gs

/-- Modelled from the spec: the default (`None`) time policy of the
merge engine (`eodata_merge.py`, not part of the available sources):
within each timestamp group all slices must be identical, else the
merge fails; one representative is kept. -/
def reduceNoneGroups : List (Timestamp × List (List Int)) → Res (List (List Int))
  | [] => .ok []
  | (_, []) :: _ => .err .valueError
  | (_, c :: cs) :: rest =>
    if cs.all (fun x => x = c) then
      match reduceNoneGroups rest with
      | .err e => .err e
      | .ok reps => .ok (c :: reps)
    else .err .valueError

/-- Modelled from the spec: merging of the spatial boxes — all
non-absent boxes must be value-equal across inputs, else the merge
fails; the result is the common box or absent. -/
def mergeBBoxes (ps : List EOPatch) : Res (Option BBox) :=
  match ps.filterMap (fun p => p.bbox) with
  | [] => .ok none
  | b :: rest => if rest.all (fun x => x = b) then .ok (some b) else .err .valueError

/-- The containers contributing a value under a name, with their raw
slots, in input order. -/
def gatherContribs (ps : List EOPatch) (da : EOPatch → FeatureDict NDArray)
    (nm : String) : List (EOPatch × EntryVal NDArray) :=
  ps.filterMap (fun p => (alookup (da p).entries nm).map (fun e => (p, e)))

/-- Modelled from the spec: the merged temporal value of one named
entry under the default time policy — each contributing container's
slices are stacked against its own timestamps, sorted by timestamp,
grouped by identical timestamp, and reduced; every contributing
entry must be realized. -/
def mergeTemporalEntry (ps : List EOPatch) (da : EOPatch → FeatureDict NDArray)
    (nm : String) : Res NDArray :=
  match gatherContribs ps da nm with
  | [] => .err .keyError
  | (_, .deferred _) :: _ => .err .valueError
  | (_p0, .realized a0) :: _ =>
    if (gatherContribs ps da nm).all
        (fun pe => match pe.2 with | .realized _ => true | .deferred _ => false) then
      match reduceNoneGroups (groupRuns (insSortBy (fun x y => x.1 ≤ y.1)
        (((gatherContribs ps da nm).filterMap (fun pe =>
          match pe.2 with
          | .realized a => some (pe.1.timestamps.zip a.timeChunks)
          | .deferred _ => none)).flatten))) with
      | .err e => .err e
      | .ok reps => .ok ⟨a0.dtype, reps.length :: a0.shape.drop 1, reps.flatten⟩
    else .err .valueError

/-- Realizes a list of contributing slots: `none` when any of them
is still a deferred placeholder. -/
def allRealized : List (EntryVal α) → Option (List α)
  | [] => some []
  | .realized a :: rest => (allRealized rest).map (fun l => a :: l)
  | .deferred _ :: _ => none

/-- Modelled from the spec: the merged timeless value of one named
entry under the default policy — a single source is copied as-is;
several sources must be identical arrays, else the merge fails. -/
def mergeTimelessEntry (ps : List EOPatch) (da : EOPatch → FeatureDict NDArray)
    (nm : String) : Res NDArray :=
  match allRealized (ps.filterMap (fun p => alookup (da p).entries nm)) with
  | none => .err .valueError
  | some [] => .err .keyError
  | some (a :: rest) => if rest.all (fun x => x = a) then .ok a else .err .valueError

/-- Modelled from the spec: the merged vector value of one named
entry — the row-wise union (concatenation) of the contributing
tables. -/
def mergeVectorEntry (ps : List EOPatch) (da : EOPatch → FeatureDict GeoDf)
    (nm : String) : Res GeoDf :=
  match allRealized (ps.filterMap (fun p => alookup (da p).entries nm)) with
  | none => .err .valueError
  | some [] => .err .keyError
  | some (g :: rest) => .ok ⟨g.columns, ((g :: rest).map GeoDf.rows).flatten⟩

/-- Modelled from the spec: the merged metadata value of one named
entry — last writer in input order wins. -/
def mergeMetaEntry (ps : List EOPatch) (da : EOPatch → FeatureDict JsonVal)
    (nm : String) : Res JsonVal :=
  match allRealized (ps.filterMap (fun p => alookup (da p).entries nm)) with
  | none => .err .valueError
  | some l =>
    match l.reverse with
    | [] => .err .keyError
    | j :: _ => .ok j

/-- The union, in first-appearance order, of the entry names of one
feature type across the input containers. -/
def mergedNames (ps : List EOPatch) (da : EOPatch → FeatureDict α) : List String :=
  ((ps.map (fun p => (da p).entries.map Prod.fst)).flatten).dedup

/-- Assembly of one merged collection: each merged entry value is
stored through `__setitem__` of a fresh collection of the given
feature type (this assembly step is `EOPatch.merge` in `eodata.py`),
which re-validates value and name. -/
def assembleDict (parse : α → String → Option α) (ft : FeatureType)
    (mergeOne : String → Res α) : List String → Res (List (String × EntryVal α))
  | [] => .ok []
  | nm :: rest =>
    match mergeOne nm with
    | .err e => .err e
    | .ok v =>
      match parse v nm with
      | none => .err .valueError
      | some pv =>
        if checkName nm then
          match assembleDict parse ft mergeOne rest with
          | .err e => .err e
          | .ok rest2 => .ok ((nm, EntryVal.realized pv) :: rest2)
        else .err .valueError

/-- Helper combining name collection and assembly for one feature
type of the merge result. -/
def mergeDictN (ps : List EOPatch) (ft : FeatureType)
    (da : EOPatch → FeatureDict NDArray) (temporal : Bool) : Res (FeatureDict NDArray) :=
  let one := if temporal then mergeTemporalEntry ps da else mergeTimelessEntry ps da
  match assembleDict (parseNumpy ft) ft one (mergedNames ps da) with
  | .err e => .err e
  | .ok es => .ok ⟨ft, es⟩

/-- Helper for the vector collections of the merge result. -/
def mergeDictG (ps : List EOPatch) (ft : FeatureType)
    (da : EOPatch → FeatureDict GeoDf) : Res (FeatureDict GeoDf) :=
  match assembleDict (parseGeo ft) ft (mergeVectorEntry ps da) (mergedNames ps da) with
  | .err e => .err e
  | .ok es => .ok ⟨ft, es⟩

/-- Helper for the metadata collection of the merge result. -/
def mergeDictJ (ps : List EOPatch) (ft : FeatureType)
    (da : EOPatch → FeatureDict JsonVal) : Res (FeatureDict JsonVal) :=
  match assembleDict (parseJson ft) ft (mergeMetaEntry ps da) (mergedNames ps da) with
  | .err e => .err e
  | .ok es => .ok ⟨ft, es⟩

/-- Modelled from the spec: `merge_eopatches` (`eodata_merge.py`,
not part of the available sources) with all features selected and
the default (`None`) time and timeless policies, assembled into a
new container by `EOPatch.merge`: the merged box must be common or
absent, the merged timestamp sequence is the sorted union of the
inputs (duplicates preserved), temporal arrays are reduced per
timestamp group, timeless arrays must agree, vector tables are
concatenated row-wise, metadata is last-writer-wins, and a feature
absent from every input is skipped. -/
def mergeEOPatches (ps : List EOPatch) : Res EOPatch :=
  match mergeBBoxes ps with
  | .err e => .err e
  | .ok bb =>
  match mergeDictN ps .DATA (fun p => p.data) true with
  | .err e => .err e
  | .ok d2 =>
  match mergeDictN ps .MASK (fun p => p.mask) true with
  | .err e => .err e
  | .ok m2 =>
  match mergeDictN ps .SCALAR (fun p => p.scalar) true with
  | .err e => .err e
  | .ok s2 =>
  match mergeDictN ps .LABEL (fun p => p.label) true with
  | .err e => .err e
  | .ok l2 =>
  match mergeDictG ps .VECTOR (fun p => p.vector) with
  | .err e => .err e
  | .ok v2 =>
  match mergeDictN ps .DATA_TIMELESS (fun p => p.data_timeless) false with
  | .err e => .err e
  | .ok dt2 =>
  match mergeDictN ps .MASK_TIMELESS (fun p => p.mask_timeless) false with
  | .err e => .err e
  | .ok mt2 =>
  match mergeDictN ps .SCALAR_TIMELESS (fun p => p.scalar_timeless) false with
  | .err e => .err e
  | .ok st2 =>
  match mergeDictN ps .LABEL_TIMELESS (fun p => p.label_timeless) false with
  | .err e => .err e
  | .ok lt2 =>
  match mergeDictG ps .VECTOR_TIMELESS (fun p => p.vector_timeless) with
  | .err e => .err e
  | .ok vt2 =>
  match mergeDictJ ps .META_INFO (fun p => p.meta_info) with
  | .err e => .err e
  | .ok mi2 =>
    .ok ⟨d2, m2, s2, l2, v2, dt2, mt2, st2, lt2, vt2, mi2, bb,
         insSortBy (fun x y => x ≤ y) ((ps.map (fun p => p.timestamps)).flatten)⟩

/-- A realized payload with an object identity: `addr` is the model
of the Python object id, `payload` the value content that the
subclass validation inspects. -/
structure CVal where
  addr : Nat
  payload : Nat
deriving DecidableEq, Repr

/-- A feature key as produced by the feature parser for the copy
loop: one of the scalar kinds, or a (feature type, name) entry. -/
inductive CKey where
  | boxK
  | tsK
  | entryK (ft : FeatureType) (name : String)
deriving DecidableEq, Repr

/-- The aggregate container specialized for the copy semantics: the
box, the timestamp sequence, and one flat map of (feature type,
name)-addressed entries whose realized values carry an identity. -/
structure CPatch where
  bbox : Option BBox
  timestamps : List Timestamp
  feats : List ((FeatureType × String) × EntryVal CVal)
deriving DecidableEq, Repr

/-- Fresh reallocation of a value under deep copy, modelled by an
injective address shift: a new object (`addr + shift`) with an equal
payload. -/
def CVal.shiftBy (shift : Nat) (v : CVal) : CVal :=
  ⟨v.addr + shift, v.payload⟩

/-- `EOPatch.__deepcopy__` on one slot: a realized value is
recursively duplicated (fresh identity, equal payload); a deferred
placeholder has its wrapper duplicated while the collaborator
reference is shared, and only an already-resolved memo payload is
deep-copied. -/
def deepTransform (shift : Nat) : EntryVal CVal → EntryVal CVal
  | .realized v => .realized (v.shiftBy shift)
  | .deferred io => .deferred ⟨io.collabRef, io.loadedValue.map (CVal.shiftBy shift)⟩

/-- `EOPatch.__copy__` on one slot: the raw slot value is reused
(shared identity for realized values, un-materialized placeholders
kept). -/
def shallowTransform : EntryVal CVal → EntryVal CVal := fun e => e

/-- One iteration of the copy loop over the parsed feature keys:
scalar kinds copy the scalar value; an entry kind reads the raw slot
from the source (`__getitem__` with `load=False`) and stores the
transformed slot in the new container through `__setitem__` (value
validation for realized values, name check). -/
def copyStep (valid : FeatureType → Nat → Bool) (tr : EntryVal CVal → EntryVal CVal)
    (src : CPatch) (q : CPatch) (k : CKey) : Res CPatch :=
  match k with
  | .boxK => .ok { q with bbox := src.bbox }
  | .tsK => .ok { q with timestamps := src.timestamps }
  | .entryK ft nm =>
    match alookup src.feats (ft, nm) with
    | none => .err .keyError
    | some e =>
      match tr e with
      | .realized v =>
        if valid ft v.payload then
          if checkName nm then
            .ok { q with feats := setAssoc q.feats (ft, nm) (.realized v) }
          else .err .valueError
        else .err .valueError
      | .deferred io =>
        if checkName nm then
          .ok { q with feats := setAssoc q.feats (ft, nm) (.deferred io) }
        else .err .valueError

/-- The copy loop over all parsed feature keys. -/
def copyLoop (valid : FeatureType → Nat → Bool) (tr : EntryVal CVal → EntryVal CVal)
    (src : CPatch) : CPatch → List CKey → Res CPatch
  | q, [] => .ok q
  | q, k :: ks =>
    match copyStep valid tr src q k with
    | .err e => .err e
    | .ok q2 => copyLoop valid tr src q2 ks

/-- `EOPatch.__copy__`: a new container is created with a copy of
the source box (regardless of the selection), then every selected
feature is copied shallowly. -/
def CPatch.copyShallow (src : CPatch) (valid : FeatureType → Nat → Bool)
    (sel : List CKey) : Res CPatch :=
  copyLoop valid shallowTransform src ⟨src.bbox, [], []⟩ sel

/-- `EOPatch.__deepcopy__`: a new container is created with a deep
copy of the source box (regardless of the selection), then every
selected feature is copied deeply; fresh allocation is modelled by
the address shift. -/
def CPatch.copyDeep (src : CPatch) (valid : FeatureType → Nat → Bool)
    (sel : List CKey) (shift : Nat) : Res CPatch :=
  copyLoop valid (deepTransform shift) src ⟨src.bbox, [], []⟩ sel

theorem alookup_none_iff [DecidableEq κ] (l : List (κ × β)) (k : κ) :
    alookup l k = none ↔ k ∉ l.map Prod.fst := by
  induction l with
  | nil => simp [alookup]
  | cons h t ih =>
    cases h with
    | mk k0 v0 =>
      by_cases hk : k0 = k
      · subst hk
        simp [alookup]
      · simp [alookup, hk, ih, Ne.symm hk]

theorem alookup_setAssoc_self [DecidableEq κ] (l : List (κ × β)) (k : κ) (v : β) :
    alookup (setAssoc l k v) k = some v := by
  induction l with
  | nil => simp [setAssoc, alookup]
  | cons h t ih =>
    cases h with
    | mk k0 v0 =>
      by_cases hk : k0 = k
      · simp [setAssoc, hk, alookup]
      · simp [setAssoc, hk, alookup, ih]

theorem alookup_setAssoc_ne [DecidableEq κ] (l : List (κ × β)) (k k2 : κ) (v : β)
    (h : k2 ≠ k) : alookup (setAssoc l k v) k2 = alookup l k2 := by
  induction l with
  | nil => simp [setAssoc, alookup, Ne.symm h]
  | cons hd t ih =>
    cases hd with
    | mk k0 v0 =>
      by_cases hk : k0 = k
      · subst hk
        simp [setAssoc, alookup, Ne.symm h, fun hx : k0 = k2 => h (hx.symm)]
      · by_cases hk2 : k0 = k2
        · simp [setAssoc, hk, alookup, hk2, h]
        · simp [setAssoc, hk, alookup, hk2, ih]

theorem setAssoc_keys [DecidableEq κ] (l : List (κ × β)) (k : κ) (v w : β)
    (h : alookup l k = some w) : (setAssoc l k v).map Prod.fst = l.map Prod.fst := by
  induction l with
  | nil => simp [alookup] at h
  | cons hd t ih =>
    cases hd with
    | mk k0 v0 =>
      by_cases hk : k0 = k
      · simp [setAssoc, hk]
      · simp [alookup, hk] at h
        simp [setAssoc, hk, ih h]

theorem delAssoc_lookup [DecidableEq κ] (l l2 : List (κ × β)) (k : κ)
    (hnd : (l.map Prod.fst).Nodup) (h : delAssoc l k = some l2) :
    alookup l2 k = none ∧ ∀ k2, k2 ≠ k → alookup l2 k2 = alookup l k2 := by
  induction l generalizing l2 with
  | nil => simp [delAssoc] at h
  | cons hd t ih =>
    cases hd with
    | mk k0 v0 =>
      simp only [List.map_cons, List.nodup_cons] at hnd
      by_cases hk : k0 = k
      · subst hk
        simp only [delAssoc, if_true, eq_self_iff_true] at h
        cases h
        constructor
        · exact (alookup_none_iff t k0).2 hnd.1
        · intro k2 hne
          simp [alookup, Ne.symm hne]
      · rw [delAssoc, if_neg hk] at h
        cases ht : delAssoc t k with
        | none =>
          rw [ht, Option.map_none'] at h
          exact Option.noConfusion h
        | some t2 =>
          rw [ht, Option.map_some'] at h
          cases h
          have hrec := ih t2 hnd.2 ht
          refine ⟨by simp [alookup, hk, hrec.1], ?_⟩
          intro k2 hne
          by_cases hk2 : k0 = k2
          · subst hk2
            simp [alookup]
          · simp [alookup, hk2, hrec.2 k2 hne]

theorem checkName_false_of_forbidden (name : String) (c : Char)
    (hc : c ∈ name.data) (hf : c ∈ forbiddenChars) : checkName name = false := by
  have h1 : name.data.all (fun ch => !(forbiddenChars.contains ch)) = false := by
    rw [List.all_eq_false]
    exact ⟨c, hc, by simp [hf]⟩
  unfold checkName
  rw [h1]
  rfl

/-- A concrete aggregate container used by concrete instances:
empty collections, a bounding box, timestamps `[1, 2]`. -/
def patch0 : EOPatch :=
  ⟨⟨.DATA, []⟩, ⟨.MASK, []⟩, ⟨.SCALAR, []⟩, ⟨.LABEL, []⟩, ⟨.VECTOR, []⟩,
   ⟨.DATA_TIMELESS, []⟩, ⟨.MASK_TIMELESS, []⟩, ⟨.SCALAR_TIMELESS, []⟩,
   ⟨.LABEL_TIMELESS, []⟩, ⟨.VECTOR_TIMELESS, []⟩, ⟨.META_INFO, []⟩,
   some ⟨5⟩, [1, 2]⟩

/-- A concrete backing-store collaborator. -/
def env0 : Env := ⟨fun _ => ⟨.floatT, [], []⟩, fun _ => ⟨[], []⟩, fun _ => 0⟩

/-- C1: on a typed collection holding a deferred placeholder under a
name, `get` with `materialize=false` returns the stored placeholder
unchanged; `get` with `materialize=true` resolves it via the
collaborator exactly once (one invocation) and memoizes the realized
value in the same slot (same keys, same position); every later `get`
on that name returns the memoized value with no further collaborator
call; `get` on an absent name fails with `KeyError`. -/
theorem C1_lazy_get_memoizes {α : Type} (parse : α → String → Option α) (env : Nat → α)
    (d : FeatureDict α) (name : String) (io : FeatureIo α) (pv : α)
    (hslot : alookup d.entries name = some (.deferred io))
    (hfresh : io.loadedValue = none)
    (hparse : parse (env io.collabRef) name = some pv)
    (hname : checkName name = true) :
    fdGet parse env d name false = .ok (.deferred io, d, 0) ∧
    fdGet parse env d name true =
      .ok (.realized (env io.collabRef),
           ⟨d.featureType, setAssoc d.entries name (.realized pv)⟩, 1) ∧
    (setAssoc d.entries name (EntryVal.realized pv)).map Prod.fst = d.entries.map Prod.fst ∧
    fdGet parse env ⟨d.featureType, setAssoc d.entries name (.realized pv)⟩ name true =
      .ok (.realized pv, ⟨d.featureType, setAssoc d.entries name (.realized pv)⟩, 0) ∧
    (∀ n2 b, alookup d.entries n2 = none → fdGet parse env d n2 b = .err .keyError) := by
  refine ⟨?_, ?_, ?_, ?_, ?_⟩
  · simp [fdGet, hslot]
  · simp [fdGet, hslot, FeatureIo.load, hfresh, hparse, hname]
  · exact setAssoc_keys d.entries name (EntryVal.realized pv) (EntryVal.deferred io) hslot
  · simp [fdGet, alookup_setAssoc_self]
  · intro n2 b h
    simp [fdGet, h]

theorem C1_witness :
    alookup ([("a", EntryVal.deferred ⟨0, none⟩)] : List (String × EntryVal JsonVal)) "a" =
        some (.deferred ⟨0, none⟩) ∧
    checkName "a" = true ∧
    fdGet (parseJson FeatureType.META_INFO) (fun _ => (7 : JsonVal))
        ⟨FeatureType.META_INFO, [("a", EntryVal.deferred ⟨0, none⟩)]⟩ "a" true =
      .ok (.realized ((fun _ => (7 : JsonVal)) 0),
           ⟨FeatureType.META_INFO,
            setAssoc [("a", EntryVal.deferred ⟨0, none⟩)] "a" (EntryVal.realized 7)⟩, 1) :=
  ⟨by decide, by decide,
   (C1_lazy_get_memoizes (parseJson FeatureType.META_INFO) (fun _ => (7 : JsonVal))
     ⟨FeatureType.META_INFO, [("a", EntryVal.deferred ⟨0, none⟩)]⟩ "a" ⟨0, none⟩ 7
     (by decide) (by decide) (by decide) (by decide)).2.1⟩

/-- C3: the array feature kinds carry the expected ranks 4,4,2,2 and
3,3,1,1; inserting (through the collection `__setitem__`) an array
whose rank differs from the expected rank raises `ValueError`, and
inserting into a discrete kind an array whose element type is not
integer or boolean raises `ValueError`. -/
theorem C3_rank_dtype_validation :
    (FeatureType.ndim .DATA = some 4 ∧ FeatureType.ndim .MASK = some 4 ∧
     FeatureType.ndim .SCALAR = some 2 ∧ FeatureType.ndim .LABEL = some 2 ∧
     FeatureType.ndim .DATA_TIMELESS = some 3 ∧ FeatureType.ndim .MASK_TIMELESS = some 3 ∧
     FeatureType.ndim .SCALAR_TIMELESS = some 1 ∧ FeatureType.ndim .LABEL_TIMELESS = some 1) ∧
    (∀ (ft : FeatureType) (r : Nat) (d : FeatureDict NDArray) (a : NDArray) (name : String),
       ft.ndim = some r → a.ndimA ≠ r →
       fdSet (parseNumpy ft) d name (.realized a) = .err .valueError) ∧
    (∀ (ft : FeatureType) (d : FeatureDict NDArray) (a : NDArray) (name : String),
       ft.is_discrete = true → is_discrete_type a.dtype = false →
       fdSet (parseNumpy ft) d name (.realized a) = .err .valueError) := by
  refine ⟨by decide, ?_, ?_⟩
  · intro ft r d a name hnd hne
    simp [fdSet, parseNumpy, hnd, hne]
  · intro ft d a name hdisc hdt
    have hnd : ∃ r, ft.ndim = some r := by
      cases ft <;>
        first
          | exact absurd hdisc (by decide)
          | exact ⟨4, by decide⟩
          | exact ⟨3, by decide⟩
          | exact ⟨2, by decide⟩
          | exact ⟨1, by decide⟩
    obtain ⟨r, hr⟩ := hnd
    by_cases hne : a.ndimA = r
    · simp [fdSet, parseNumpy, hr, hne, hdisc, hdt]
    · simp [fdSet, parseNumpy, hr, hne]

theorem C3_witness :
    FeatureType.ndim .DATA = some 4 ∧
    (⟨.floatT, [2], [0, 0]⟩ : NDArray).ndimA ≠ 4 ∧
    fdSet (parseNumpy .DATA) ⟨.DATA, []⟩ "x" (.realized ⟨.floatT, [2], [0, 0]⟩) =
      .err .valueError ∧
    FeatureType.is_discrete .MASK = true ∧
    is_discrete_type DType.floatT = false ∧
    fdSet (parseNumpy .MASK) ⟨.MASK, []⟩ "m"
        (.realized ⟨.floatT, [1, 1, 1, 1], [0]⟩) = .err .valueError :=
  ⟨by decide, by decide,
   C3_rank_dtype_validation.2.1 .DATA 4 ⟨.DATA, []⟩ ⟨.floatT, [2], [0, 0]⟩ "x"
     (by decide) (by decide),
   by decide, by decide,
   C3_rank_dtype_validation.2.2 .MASK ⟨.MASK, []⟩ ⟨.floatT, [1, 1, 1, 1], [0]⟩ "m"
     (by decide) (by decide)⟩

/-- C4: inserting an entry under the empty name, or under a name
containing one of the forbidden characters
`. / \ | ; : newline tab`, raises `ValueError`; inserting under a
valid name that already exists overwrites the prior entry in place,
leaving every other name unchanged. -/
theorem C4_name_rules {α : Type} :
    forbiddenChars = ['.', '/', '\\', '|', ';', ':', '\n', '\t'] ∧
    (∀ (parse : α → String → Option α) (d : FeatureDict α) (v : EntryVal α),
       fdSet parse d "" v = .err .valueError) ∧
    (∀ (parse : α → String → Option α) (d : FeatureDict α) (name : String)
       (v : EntryVal α) (c : Char), c ∈ name.data → c ∈ forbiddenChars →
       fdSet parse d name v = .err .valueError) ∧
    (∀ (parse : α → String → Option α) (d : FeatureDict α) (name : String) (a pa : α)
       (old : EntryVal α),
       checkName name = true → parse a name = some pa →
       alookup d.entries name = some old →
       fdSet parse d name (.realized a) =
         .ok ⟨d.featureType, setAssoc d.entries name (.realized pa)⟩ ∧
       alookup (setAssoc d.entries name (EntryVal.realized pa)) name =
         some (.realized pa) ∧
       (∀ n2, n2 ≠ name →
         alookup (setAssoc d.entries name (EntryVal.realized pa)) n2 =
           alookup d.entries n2)) := by
  have hempty : checkName "" = false := by decide
  refine ⟨rfl, ?_, ?_, ?_⟩
  · intro parse d v
    cases v with
    | deferred io => simp [fdSet, hempty]
    | realized a =>
      cases h : parse a "" with
      | none => simp [fdSet, h]
      | some pa => simp [fdSet, h, hempty]
  · intro parse d name v c hc hf
    have hcf := checkName_false_of_forbidden name c hc hf
    cases v with
    | deferred io => simp [fdSet, hcf]
    | realized a =>
      cases h : parse a name with
      | none => simp [fdSet, h]
      | some pa => simp [fdSet, h, hcf]
  · intro parse d name a pa old hname hparse hold
    refine ⟨by simp [fdSet, hparse, hname], alookup_setAssoc_self d.entries name _, ?_⟩
    intro n2 hne
    exact alookup_setAssoc_ne d.entries name n2 _ hne

theorem C4_witness :
    ('/' ∈ "a/b".data ∧ '/' ∈ forbiddenChars) ∧
    fdSet (parseJson .META_INFO) (⟨.META_INFO, []⟩ : FeatureDict JsonVal) "a/b"
      (.realized 1) = .err .valueError ∧
    (checkName "a" = true ∧
     alookup ([("a", EntryVal.realized (3 : JsonVal))]) "a" = some (.realized 3)) ∧
    fdSet (parseJson .META_INFO)
        (⟨.META_INFO, [("a", EntryVal.realized (3 : JsonVal))]⟩ : FeatureDict JsonVal)
        "a" (.realized 9) =
      .ok ⟨.META_INFO, setAssoc [("a", EntryVal.realized (3 : JsonVal))] "a"
            (.realized 9)⟩ :=
  ⟨⟨by decide, by decide⟩,
   C4_name_rules.2.2.1 (parseJson .META_INFO) ⟨.META_INFO, []⟩ "a/b" (.realized 1) '/'
     (by decide) (by decide),
   ⟨by decide, by decide⟩,
   (C4_name_rules.2.2.2 (parseJson .META_INFO)
     ⟨.META_INFO, [("a", EntryVal.realized (3 : JsonVal))]⟩ "a" 9 9 (.realized 3)
     (by decide) (by decide) (by decide)).1⟩

/-- C9: value validation happens only for realized values — storing
a deferred placeholder through `__setitem__` bypasses the value
check entirely (for an arbitrary validator), a non-materializing
`get` returns any stored slot without validation, and the value
invariant is first enforced when the resolved value is written back
during the first materializing `get`, which raises `ValueError` when
the resolved value fails validation. -/
theorem C9_deferred_bypasses_validation {α : Type} :
    (∀ (parse : α → String → Option α) (d : FeatureDict α) (name : String)
       (io : FeatureIo α), checkName name = true →
       fdSet parse d name (.deferred io) =
         .ok ⟨d.featureType, setAssoc d.entries name (.deferred io)⟩) ∧
    (∀ (parse : α → String → Option α) (env : Nat → α) (d : FeatureDict α)
       (name : String) (e : EntryVal α), alookup d.entries name = some e →
       fdGet parse env d name false = .ok (e, d, 0)) ∧
    (∀ (parse : α → String → Option α) (env : Nat → α) (d : FeatureDict α)
       (name : String) (io : FeatureIo α),
       alookup d.entries name = some (.deferred io) → io.loadedValue = none →
       parse (env io.collabRef) name = none →
       fdGet parse env d name true = .err .valueError) := by
  refine ⟨?_, ?_, ?_⟩
  · intro parse d name io h
    simp [fdSet, h]
  · intro parse env d name e h
    cases e <;> simp [fdGet, h]
  · intro parse env d name io h hf hp
    simp [fdGet, h, FeatureIo.load, hf, hp]

theorem C9_witness :
    checkName "bad" = true ∧
    fdSet (parseNumpy .DATA) (⟨.DATA, []⟩ : FeatureDict NDArray) "bad"
        (.deferred ⟨0, none⟩) =
      .ok ⟨.DATA, setAssoc [] "bad" (.deferred ⟨0, none⟩)⟩ ∧
    fdGet (parseNumpy .DATA) (fun _ => ⟨.floatT, [1], [0]⟩)
        (⟨.DATA, [("bad", EntryVal.deferred ⟨0, none⟩)]⟩ : FeatureDict NDArray)
        "bad" true = .err .valueError :=
  ⟨by decide,
   C9_deferred_bypasses_validation.1 (parseNumpy .DATA) ⟨.DATA, []⟩ "bad" ⟨0, none⟩
     (by decide),
   C9_deferred_bypasses_validation.2.2 (parseNumpy .DATA) (fun _ => ⟨.floatT, [1], [0]⟩)
     ⟨.DATA, [("bad", EntryVal.deferred ⟨0, none⟩)]⟩ "bad" ⟨0, none⟩
     (by decide) (by decide) (by decide)⟩

/-- C10: deleting with the pair (`BBOX`, name) raises the same
`ValueError` as deleting the bare `BBOX`, and deleting with the pair
(`TIMESTAMPS`, name) clears the timestamp sequence to empty — the
name component is ignored for both scalar kinds rather than
rejected. -/
theorem C10_scalar_pair_delete (p : EOPatch) (name : String) :
    p.delPair .BBOX name = .err .valueError ∧
    p.delPair .BBOX name = p.delBare .BBOX ∧
    p.delPair .TIMESTAMPS name = .ok { p with timestamps := [] } ∧
    p.delPair .TIMESTAMPS name = p.delBare .TIMESTAMPS :=
  ⟨rfl, rfl, rfl, rfl⟩

/-- C8 counterexample: reading `patch0` with the pair
(`BBOX`, "x") does not fail — it returns the stored bounding box,
ignoring the name. -/
theorem C8_counterexample :
    patch0.getItem env0 .BBOX (some "x") = .ok (.box (some ⟨5⟩), patch0) := rfl

/-- C8 (amended): reading a scalar kind (`BBOX` or `TIMESTAMPS`)
with the pair form (kind, name) does not fail — the name component
is ignored and the stored scalar value is returned, with the patch
unchanged. -/
theorem C8_scalar_pair_read_ignores_name (env : Env) (p : EOPatch) (name : String) :
    p.getItem env .BBOX (some name) = .ok (.box p.bbox, p) ∧
    p.getItem env .TIMESTAMPS (some name) = .ok (.times p.timestamps, p) :=
  ⟨rfl, rfl⟩

/-- The value stored at a feature type, viewed uniformly: one of the
three collection families, the box, or the timestamp sequence. -/
inductive FDView where
  | nd (d : FeatureDict NDArray)
  | gd (d : FeatureDict GeoDf)
  | jd (d : FeatureDict JsonVal)
  | bx (b : Option BBox)
  | ts (l : List Timestamp)
deriving DecidableEq, Repr

/-- Uniform view of the attribute stored at each feature type. -/
def EOPatch.viewOf (p : EOPatch) : FeatureType → FDView
  | .DATA => .nd p.data
  | .MASK => .nd p.mask
  | .SCALAR => .nd p.scalar
  | .LABEL => .nd p.label
  | .VECTOR => .gd p.vector
  | .DATA_TIMELESS => .nd p.data_timeless
  | .MASK_TIMELESS => .nd p.mask_timeless
  | .SCALAR_TIMELESS => .nd p.scalar_timeless
  | .LABEL_TIMELESS => .nd p.label_timeless
  | .VECTOR_TIMELESS => .gd p.vector_timeless
  | .META_INFO => .jd p.meta_info
  | .BBOX => .bx p.bbox
  | .TIMESTAMPS => .ts p.timestamps

/-- The entry names of a viewed collection (empty for scalar kinds). -/
def FDView.keys : FDView → List String
  | .nd d => d.entries.map Prod.fst
  | .gd d => d.entries.map Prod.fst
  | .jd d => d.entries.map Prod.fst
  | .bx _ => []
  | .ts _ => []

/-- A slot of any of the three collection families. -/
inductive ESum where
  | en (e : EntryVal NDArray)
  | eg (e : EntryVal GeoDf)
  | ej (e : EntryVal JsonVal)
deriving DecidableEq, Repr

/-- Name lookup through the uniform view. -/
def FDView.lookupName : FDView → String → Option ESum
  | .nd d, n => (alookup d.entries n).map ESum.en
  | .gd d, n => (alookup d.entries n).map ESum.eg
  | .jd d, n => (alookup d.entries n).map ESum.ej
  | .bx _, _ => none
  | .ts _, _ => none

theorem mapResDel_spec {α : Type} (f : FeatureDict α → EOPatch) (d : FeatureDict α)
    (name : String) (q : EOPatch) (hnd : (d.entries.map Prod.fst).Nodup)
    (h : mapRes f (delEntry d name) = .ok q) :
    ∃ d2 : FeatureDict α, q = f d2 ∧ alookup d2.entries name = none ∧
      (∀ n2, n2 ≠ name → alookup d2.entries n2 = alookup d.entries n2) ∧
      d2.featureType = d.featureType := by
  unfold delEntry at h
  cases ht : delAssoc d.entries name with
  | none =>
    rw [ht] at h
    exact Res.noConfusion h
  | some es =>
    rw [ht] at h
    simp only [mapRes] at h
    cases h
    have hspec := delAssoc_lookup d.entries es name hnd ht
    exact ⟨⟨d.featureType, es⟩, rfl, hspec.1, hspec.2, rfl⟩

/-- C5: deleting the bare `BBOX` kind raises `ValueError`; deleting
the bare `TIMESTAMPS` kind resets the sequence to empty; deleting a
bare entry kind resets that kind's collection to empty while leaving
every other kind unchanged; deleting a (kind, name) pair for an
entry kind removes only the named entry, leaving all other entries
and all other kinds unchanged. -/
theorem C5_delete_semantics (p : EOPatch) :
    p.delBare .BBOX = .err .valueError ∧
    p.delBare .TIMESTAMPS = .ok { p with timestamps := [] } ∧
    (∀ ft, ft ≠ .BBOX → ft ≠ .TIMESTAMPS →
      ∃ q, p.delBare ft = .ok q ∧ (q.viewOf ft).keys = [] ∧
        (∀ ft2, ft2 ≠ ft → q.viewOf ft2 = p.viewOf ft2)) ∧
    (∀ ft name q, ft ≠ .BBOX → ft ≠ .TIMESTAMPS →
      (p.viewOf ft).keys.Nodup → p.delPair ft name = .ok q →
      (q.viewOf ft).lookupName name = none ∧
      (∀ n2, n2 ≠ name → (q.viewOf ft).lookupName n2 = (p.viewOf ft).lookupName n2) ∧
      (∀ ft2, ft2 ≠ ft → q.viewOf ft2 = p.viewOf ft2)) := by
  refine ⟨rfl, rfl, ?_, ?_⟩
  · intro ft h1 h2
    cases ft
    case BBOX => exact absurd rfl h1
    case TIMESTAMPS => exact absurd rfl h2
    all_goals
      exact ⟨_, rfl, rfl, fun ft2 hne => by
        cases ft2 <;> first | exact absurd rfl hne | rfl⟩
  · intro ft name q h1 h2 hnd hdel
    cases ft
    case BBOX => exact absurd rfl h1
    case TIMESTAMPS => exact absurd rfl h2
    all_goals
      simp only [EOPatch.delPair, decide_False, Bool.or_self, Bool.false_eq_true,
        if_false, reduceCtorEq] at hdel
    all_goals
      obtain ⟨d2, rfl, hl, ho, hft⟩ := mapResDel_spec _ _ _ _ hnd hdel
    all_goals
      refine ⟨by simp [EOPatch.viewOf, FDView.lookupName, hl], ?_, ?_⟩
    all_goals
      try (intro n2 hn
           simp [EOPatch.viewOf, FDView.lookupName, ho n2 hn])
    all_goals
      intro ft2 hne
      cases ft2 <;> first | exact absurd rfl hne | rfl

theorem contains_eq_decide_mem (x : Timestamp) (l : List Timestamp) :
    l.contains x = decide (x ∈ l) := by
  by_cases h : x ∈ l
  · simp [h]
  · simp [h]

theorem idxOfT_lt (t : Timestamp) (l : List Timestamp) (h : t ∈ l) :
    idxOfT t l < l.length := by
  induction l with
  | nil => simp at h
  | cons x xs ih =>
    by_cases hx : x = t
    · simp [idxOfT, hx]
    · have h2 : t ∈ xs := List.mem_of_ne_of_mem (fun he => hx he.symm) h
      simp only [idxOfT, if_neg hx, List.length_cons]
      exact Nat.succ_lt_succ (ih h2)

theorem getD_idxOfT (t : Timestamp) (l : List Timestamp) (h : t ∈ l) :
    l.getD (idxOfT t l) 0 = t := by
  induction l with
  | nil => simp at h
  | cons x xs ih =>
    by_cases hx : x = t
    · simp [idxOfT, hx]
    · have h2 : t ∈ xs := List.mem_of_ne_of_mem (fun he => hx he.symm) h
      simp only [idxOfT, if_neg hx, List.getD_cons_succ]
      exact ih h2

theorem idxOfT_getD (l : List Timestamp) (hnd : l.Nodup) (i : Nat) (h : i < l.length) :
    idxOfT (l.getD i 0) l = i := by
  induction l generalizing i with
  | nil => simp at h
  | cons x xs ih =>
    cases i with
    | zero => simp [idxOfT]
    | succ j =>
      have hj : j < xs.length := Nat.lt_of_succ_lt_succ h
      have hmem : xs.getD j 0 ∈ xs := by
        rw [List.getD_eq_getElem xs 0 hj]
        exact List.getElem_mem hj
      have hx : ¬(x = xs.getD j 0) := by
        intro he
        exact (List.nodup_cons.1 hnd).1 (he ▸ hmem)
      rw [List.getD_cons_succ]
      show (if x = xs.getD j 0 then 0 else idxOfT (xs.getD j 0) xs + 1) = j + 1
      rw [if_neg hx, ih (List.nodup_cons.1 hnd).2 j hj]

theorem mem_removedOf (ts valid : List Timestamp) (t : Timestamp) :
    t ∈ removedOf ts valid ↔ (t ∈ ts ∧ t ∉ valid) := by
  simp [removedOf, List.mem_dedup, List.mem_filter]

theorem mem_removeIdxsOf (ts valid : List Timestamp) (hnd : ts.Nodup) (i : Nat)
    (hi : i < ts.length) :
    i ∈ removeIdxsOf ts valid ↔ ts.getD i 0 ∉ valid := by
  unfold removeIdxsOf
  constructor
  · intro h
    obtain ⟨t, ht, hidx⟩ := List.mem_map.1 h
    have hmem := (mem_removedOf ts valid t).1 ht
    rw [← hidx, getD_idxOfT t ts hmem.1]
    exact hmem.2
  · intro h
    have hmem : ts.getD i 0 ∈ ts := by
      rw [List.getD_eq_getElem ts 0 hi]
      exact List.getElem_mem hi
    refine List.mem_map.2 ⟨ts.getD i 0, ?_, idxOfT_getD ts hnd i hi⟩
    exact (mem_removedOf ts valid _).2 ⟨hmem, h⟩

/-- The kept positions, characterized directly: the positions whose
timestamp is in the valid list. -/
def keptIdxs (ts valid : List Timestamp) : List Nat :=
  (List.range ts.length).filter (fun i => valid.contains (ts.getD i 0))

theorem goodIdxsOf_eq_keptIdxs (ts valid : List Timestamp) (hnd : ts.Nodup) :
    goodIdxsOf ts valid = keptIdxs ts valid := by
  unfold goodIdxsOf keptIdxs
  apply List.filter_congr
  intro i hi
  have hi2 : i < ts.length := List.mem_range.1 hi
  rw [contains_eq_decide_mem i (removeIdxsOf ts valid),
      contains_eq_decide_mem (ts.getD i 0) valid]
  by_cases h : ts.getD i 0 ∈ valid
  · have h2 : i ∉ removeIdxsOf ts valid := by
      intro hin
      exact (mem_removeIdxsOf ts valid hnd i hi2).1 hin h
    rw [decide_eq_true h, decide_eq_false h2]
    rfl
  · have h2 : i ∈ removeIdxsOf ts valid :=
      (mem_removeIdxsOf ts valid hnd i hi2).2 h
    rw [decide_eq_false h, decide_eq_true h2]
    rfl

theorem filter_map_succ (l : List Nat) (p : Nat → Bool) :
    (l.map Nat.succ).filter p = (l.filter (fun j => p (Nat.succ j))).map Nat.succ := by
  induction l with
  | nil => rfl
  | cons a t ih =>
    cases h : p (Nat.succ a) with
    | true => simp [List.filter_cons, h, ih]
    | false => simp [List.filter_cons, h, ih]

theorem filtered_range_map_getD (ts : List Timestamp) (r : Timestamp → Bool) :
    ((List.range ts.length).filter (fun i => r (ts.getD i 0))).map
        (fun i => ts.getD i 0) = ts.filter r := by
  induction ts with
  | nil => rfl
  | cons t rest ih =>
    have hfun : ((fun i => (t :: rest).getD i 0) ∘ Nat.succ) = (fun j => rest.getD j 0) := by
      funext j
      simp [Function.comp, List.getD_cons_succ]
    have hpred : (fun j => r ((t :: rest).getD (Nat.succ j) 0)) =
        (fun j => r (rest.getD j 0)) := by
      funext j
      rw [List.getD_cons_succ]
    have hsucc : ((List.range rest.length).map Nat.succ).filter
        (fun i => r ((t :: rest).getD i 0)) =
        ((List.range rest.length).filter (fun j => r (rest.getD j 0))).map Nat.succ := by
      rw [filter_map_succ, hpred]
    rw [List.length_cons, List.range_succ_eq_map, List.filter_cons]
    simp only [List.getD_cons_zero]
    by_cases h : r t = true
    · rw [if_pos h]
      simp only [List.map_cons, List.getD_cons_zero]
      rw [hsucc, List.map_map, hfun]
      rw [List.filter_cons, if_pos h]
      exact congrArg (List.cons t) ih
    · rw [if_neg h]
      rw [hsucc, List.map_map, hfun]
      rw [List.filter_cons, if_neg h]
      exact ih

theorem parseNumpy_ok (ft : FeatureType) (a : NDArray) (n : String) (b : NDArray)
    (h : parseNumpy ft a n = some b) : b = a := by
  unfold parseNumpy at h
  cases hn : ft.ndim with
  | none =>
    rw [hn] at h
    exact Option.noConfusion h
  | some r =>
    rw [hn] at h
    dsimp only at h
    by_cases h1 : a.ndimA ≠ r
    · rw [if_pos h1] at h
      exact Option.noConfusion h
    · rw [if_neg h1] at h
      by_cases h2 : (ft.is_discrete && !(is_discrete_type a.dtype)) = true
      · rw [if_pos h2] at h
        exact Option.noConfusion h
      · rw [if_neg h2] at h
        cases h
        rfl

theorem parseGeo_ok (ft : FeatureType) (g : GeoDf) (n : String) (b : GeoDf)
    (h : parseGeo ft g n = some b) : b = g := by
  unfold parseGeo at h
  by_cases h1 : (decide (ft = FeatureType.VECTOR) && !(g.columns.contains "TIMESTAMP")) = true
  · rw [if_pos h1] at h
    exact Option.noConfusion h
  · rw [if_neg h1] at h
    cases h
    rfl

theorem consDictN_lookup (ft : FeatureType) (gi : List Nat) :
    ∀ (l l2 : List (String × EntryVal NDArray)), consDictN ft gi l = .ok l2 →
    ∀ n a, alookup l n = some (.realized a) →
      alookup l2 n = some (.realized (a.timeSelect gi)) := by
  intro l
  induction l with
  | nil =>
    intro l2 h n a hl
    simp [alookup] at hl
  | cons hd rest ih =>
    intro l2 h n a hl
    obtain ⟨n0, e0⟩ := hd
    cases e0 with
    | deferred io => exact Res.noConfusion h
    | realized a0 =>
      simp only [consDictN] at h
      cases hp : parseNumpy ft (a0.timeSelect gi) n0 with
      | none =>
        rw [hp] at h
        exact Res.noConfusion h
      | some a2 =>
        rw [hp] at h
        dsimp only at h
        by_cases hc : checkName n0 = true
        · rw [if_pos hc] at h
          cases hr : consDictN ft gi rest with
          | err e =>
            rw [hr] at h
            exact Res.noConfusion h
          | ok rest2 =>
            rw [hr] at h
            cases h
            have ha2 : a2 = a0.timeSelect gi := parseNumpy_ok ft _ n0 a2 hp
            by_cases hn : n0 = n
            · subst hn
              simp [alookup] at hl
              subst hl
              simp [alookup, ha2]
            · simp only [alookup, if_neg hn] at hl ⊢
              exact ih rest2 hr n a hl
        · rw [if_neg hc] at h
          exact Res.noConfusion h

theorem consDictG_lookup (ft : FeatureType) (gi : List Nat) :
    ∀ (l l2 : List (String × EntryVal GeoDf)), consDictG ft gi l = .ok l2 →
    ∀ n g, alookup l n = some (.realized g) →
      alookup l2 n = some (.realized (g.rowSelect gi)) := by
  intro l
  induction l with
  | nil =>
    intro l2 h n g hl
    simp [alookup] at hl
  | cons hd rest ih =>
    intro l2 h n g hl
    obtain ⟨n0, e0⟩ := hd
    cases e0 with
    | deferred io => exact Res.noConfusion h
    | realized g0 =>
      simp only [consDictG] at h
      cases hp : parseGeo ft (g0.rowSelect gi) n0 with
      | none =>
        rw [hp] at h
        exact Res.noConfusion h
      | some g2 =>
        rw [hp] at h
        dsimp only at h
        by_cases hc : checkName n0 = true
        · rw [if_pos hc] at h
          cases hr : consDictG ft gi rest with
          | err e =>
            rw [hr] at h
            exact Res.noConfusion h
          | ok rest2 =>
            rw [hr] at h
            cases h
            have hg2 : g2 = g0.rowSelect gi := parseGeo_ok ft _ n0 g2 hp
            by_cases hn : n0 = n
            · subst hn
              simp [alookup] at hl
              subst hl
              simp [alookup, hg2]
            · simp only [alookup, if_neg hn] at hl ⊢
              exact ih rest2 hr n g hl
        · rw [if_neg hc] at h
          exact Res.noConfusion h

/-- C2: a successful `consolidate_timestamps(valid)` on a container
with duplicate-free timestamps returns exactly the set of own
timestamps absent from `valid`; keeps, in order, exactly the
timestamps found in `valid`; replaces every realized entry of every
temporal non-meta collection (DATA, MASK, SCALAR, LABEL, VECTOR) by
its time-axis selection at the kept first-occurrence positions; and
leaves the timeless and meta collections and the box unchanged. -/
theorem C2_consolidate_semantics (p : EOPatch) (v : List Timestamp) (q : EOPatch)
    (removed : List Timestamp) (hnd : p.timestamps.Nodup)
    (h : p.consolidate_timestamps v = .ok (q, removed)) :
    (∀ t, t ∈ removed ↔ (t ∈ p.timestamps ∧ t ∉ v)) ∧
    q.timestamps = p.timestamps.filter (fun t => v.contains t) ∧
    (∀ name a, alookup p.data.entries name = some (.realized a) →
      alookup q.data.entries name =
        some (.realized (a.timeSelect (keptIdxs p.timestamps v)))) ∧
    (∀ name a, alookup p.mask.entries name = some (.realized a) →
      alookup q.mask.entries name =
        some (.realized (a.timeSelect (keptIdxs p.timestamps v)))) ∧
    (∀ name a, alookup p.scalar.entries name = some (.realized a) →
      alookup q.scalar.entries name =
        some (.realized (a.timeSelect (keptIdxs p.timestamps v)))) ∧
    (∀ name a, alookup p.label.entries name = some (.realized a) →
      alookup q.label.entries name =
        some (.realized (a.timeSelect (keptIdxs p.timestamps v)))) ∧
    (∀ name g, alookup p.vector.entries name = some (.realized g) →
      alookup q.vector.entries name =
        some (.realized (g.rowSelect (keptIdxs p.timestamps v)))) ∧
    q.data_timeless = p.data_timeless ∧ q.mask_timeless = p.mask_timeless ∧
    q.scalar_timeless = p.scalar_timeless ∧ q.label_timeless = p.label_timeless ∧
    q.vector_timeless = p.vector_timeless ∧ q.meta_info = p.meta_info ∧
    q.bbox = p.bbox := by
  unfold EOPatch.consolidate_timestamps at h
  cases h1 : consDictN .DATA (goodIdxsOf p.timestamps v) p.data.entries with
  | err e =>
    rw [h1] at h
    exact Res.noConfusion h
  | ok d2 =>
  cases h2 : consDictN .MASK (goodIdxsOf p.timestamps v) p.mask.entries with
  | err e =>
    rw [h1, h2] at h
    exact Res.noConfusion h
  | ok m2 =>
  cases h3 : consDictN .SCALAR (goodIdxsOf p.timestamps v) p.scalar.entries with
  | err e =>
    rw [h1, h2, h3] at h
    exact Res.noConfusion h
  | ok s2 =>
  cases h4 : consDictN .LABEL (goodIdxsOf p.timestamps v) p.label.entries with
  | err e =>
    rw [h1, h2, h3, h4] at h
    exact Res.noConfusion h
  | ok l2 =>
  cases h5 : consDictG .VECTOR (goodIdxsOf p.timestamps v) p.vector.entries with
  | err e =>
    rw [h1, h2, h3, h4, h5] at h
    exact Res.noConfusion h
  | ok v2 =>
  rw [h1, h2, h3, h4, h5] at h
  dsimp only at h
  rw [Res.ok.injEq, Prod.mk.injEq] at h
  obtain ⟨hq, hrem⟩ := h
  subst hq
  subst hrem
  have hgi := goodIdxsOf_eq_keptIdxs p.timestamps v hnd
  refine ⟨?_, ?_, ?_, ?_, ?_, ?_, ?_, rfl, rfl, rfl, rfl, rfl, rfl, rfl⟩
  · intro t
    exact mem_removedOf p.timestamps v t
  · show goodTimestampsOf p.timestamps v = _
    unfold goodTimestampsOf
    rw [hgi]
    exact filtered_range_map_getD p.timestamps (fun t => v.contains t)
  · intro name a hl
    have := consDictN_lookup .DATA (goodIdxsOf p.timestamps v) p.data.entries d2 h1 name a hl
    rw [hgi] at this
    exact this
  · intro name a hl
    have := consDictN_lookup .MASK (goodIdxsOf p.timestamps v) p.mask.entries m2 h2 name a hl
    rw [hgi] at this
    exact this
  · intro name a hl
    have := consDictN_lookup .SCALAR (goodIdxsOf p.timestamps v) p.scalar.entries s2 h3 name a hl
    rw [hgi] at this
    exact this
  · intro name a hl
    have := consDictN_lookup .LABEL (goodIdxsOf p.timestamps v) p.label.entries l2 h4 name a hl
    rw [hgi] at this
    exact this
  · intro name g hl
    have := consDictG_lookup .VECTOR (goodIdxsOf p.timestamps v) p.vector.entries v2 h5 name g hl
    rw [hgi] at this
    exact this

/-- Concrete container for the consolidation instance of the spec:
timestamps `[t1, t2, t3]` and one temporal DATA entry with three
time slices. -/
def c2patch : EOPatch :=
  { patch0 with
      data := ⟨.DATA, [("d", .realized ⟨.floatT, [3, 1, 1, 1], [10, 20, 30]⟩)]⟩,
      timestamps := [1, 2, 3] }

/-- The expected consolidation result of `c2patch` against
`[t1, t3]`: the middle slice removed everywhere, timestamps
truncated. -/
def c2result : EOPatch :=
  { c2patch with
      data := ⟨.DATA, [("d", .realized ⟨.floatT, [2, 1, 1, 1], [10, 30]⟩)]⟩,
      timestamps := [1, 3] }

theorem C2_witness :
    (c2patch.timestamps.Nodup ∧
     c2patch.consolidate_timestamps [1, 3] = .ok (c2result, [2])) ∧
    (2 ∈ ([2] : List Timestamp) ↔ (2 ∈ c2patch.timestamps ∧ 2 ∉ ([1, 3] : List Timestamp))) ∧
    c2result.timestamps = c2patch.timestamps.filter (fun t => ([1, 3] : List Timestamp).contains t) :=
  ⟨⟨by decide, by decide⟩,
   (C2_consolidate_semantics c2patch [1, 3] c2result [2] (by decide) (by decide)).1 2,
   (C2_consolidate_semantics c2patch [1, 3] c2result [2] (by decide) (by decide)).2.1⟩

theorem copyStep_bbox (valid : FeatureType → Nat → Bool) (tr : EntryVal CVal → EntryVal CVal)
    (src acc q2 : CPatch) (k : CKey) (h : copyStep valid tr src acc k = .ok q2)
    (hb : acc.bbox = src.bbox) : q2.bbox = src.bbox := by
  cases k with
  | boxK =>
    cases h
    rfl
  | tsK =>
    cases h
    exact hb
  | entryK ft nm =>
    unfold copyStep at h
    dsimp only at h
    cases hl : alookup src.feats (ft, nm) with
    | none =>
      rw [hl] at h
      exact Res.noConfusion h
    | some e =>
      rw [hl] at h
      dsimp only at h
      cases he : tr e with
      | realized v =>
        rw [he] at h
        dsimp only at h
        by_cases hv : valid ft v.payload = true
        · rw [if_pos hv] at h
          by_cases hc : checkName nm = true
          · rw [if_pos hc] at h
            cases h
            exact hb
          · rw [if_neg hc] at h
            exact Res.noConfusion h
        · rw [if_neg hv] at h
          exact Res.noConfusion h
      | deferred io =>
        rw [he] at h
        dsimp only at h
        by_cases hc : checkName nm = true
        · rw [if_pos hc] at h
          cases h
          exact hb
        · rw [if_neg hc] at h
          exact Res.noConfusion h

theorem copyLoop_bbox (valid : FeatureType → Nat → Bool) (tr : EntryVal CVal → EntryVal CVal)
    (src : CPatch) : ∀ (sel : List CKey) (acc q : CPatch),
    acc.bbox = src.bbox → copyLoop valid tr src acc sel = .ok q → q.bbox = src.bbox := by
  intro sel
  induction sel with
  | nil =>
    intro acc q hb h
    cases h
    exact hb
  | cons k ks ih =>
    intro acc q hb h
    unfold copyLoop at h
    cases hs : copyStep valid tr src acc k with
    | err e =>
      rw [hs] at h
      exact Res.noConfusion h
    | ok q2 =>
      rw [hs] at h
      exact ih q2 q (copyStep_bbox valid tr src acc q2 k hs hb) h

theorem copyStep_sets (valid : FeatureType → Nat → Bool) (tr : EntryVal CVal → EntryVal CVal)
    (src acc q2 : CPatch) (ft : FeatureType) (nm : String) (e : EntryVal CVal)
    (hsrc : alookup src.feats (ft, nm) = some e)
    (h : copyStep valid tr src acc (.entryK ft nm) = .ok q2) :
    alookup q2.feats (ft, nm) = some (tr e) := by
  unfold copyStep at h
  dsimp only at h
  rw [hsrc] at h
  dsimp only at h
  cases he : tr e with
  | realized v =>
    rw [he] at h
    dsimp only at h
    by_cases hv : valid ft v.payload = true
    · rw [if_pos hv] at h
      by_cases hc : checkName nm = true
      · rw [if_pos hc] at h
        cases h
        simp [alookup_setAssoc_self]
      · rw [if_neg hc] at h
        exact Res.noConfusion h
    · rw [if_neg hv] at h
      exact Res.noConfusion h
  | deferred io =>
    rw [he] at h
    dsimp only at h
    by_cases hc : checkName nm = true
    · rw [if_pos hc] at h
      cases h
      simp [alookup_setAssoc_self]
    · rw [if_neg hc] at h
      exact Res.noConfusion h

theorem copyStep_preserves (valid : FeatureType → Nat → Bool)
    (tr : EntryVal CVal → EntryVal CVal) (src acc q2 : CPatch) (ft : FeatureType)
    (nm : String) (k : CKey) (hne : k ≠ .entryK ft nm)
    (h : copyStep valid tr src acc k = .ok q2) :
    alookup q2.feats (ft, nm) = alookup acc.feats (ft, nm) := by
  cases k with
  | boxK =>
    cases h
    rfl
  | tsK =>
    cases h
    rfl
  | entryK ft2 nm2 =>
    have hne2 : ((ft2, nm2) : FeatureType × String) ≠ (ft, nm) := by
      intro he
      apply hne
      rw [Prod.mk.injEq] at he
      rw [he.1, he.2]
    unfold copyStep at h
    dsimp only at h
    cases hl : alookup src.feats (ft2, nm2) with
    | none =>
      rw [hl] at h
      exact Res.noConfusion h
    | some e =>
      rw [hl] at h
      dsimp only at h
      cases he : tr e with
      | realized v =>
        rw [he] at h
        dsimp only at h
        by_cases hv : valid ft2 v.payload = true
        · rw [if_pos hv] at h
          by_cases hc : checkName nm2 = true
          · rw [if_pos hc] at h
            cases h
            exact alookup_setAssoc_ne acc.feats (ft2, nm2) (ft, nm) _ (Ne.symm hne2)
          · rw [if_neg hc] at h
            exact Res.noConfusion h
        · rw [if_neg hv] at h
          exact Res.noConfusion h
      | deferred io =>
        rw [he] at h
        dsimp only at h
        by_cases hc : checkName nm2 = true
        · rw [if_pos hc] at h
          cases h
          exact alookup_setAssoc_ne acc.feats (ft2, nm2) (ft, nm) _ (Ne.symm hne2)
        · rw [if_neg hc] at h
          exact Res.noConfusion h

theorem copyLoop_lookup (valid : FeatureType → Nat → Bool)
    (tr : EntryVal CVal → EntryVal CVal) (src : CPatch) (ft : FeatureType) (nm : String)
    (e : EntryVal CVal) (hsrc : alookup src.feats (ft, nm) = some e) :
    ∀ (sel : List CKey) (acc q : CPatch), copyLoop valid tr src acc sel = .ok q →
    (CKey.entryK ft nm ∈ sel ∨ alookup acc.feats (ft, nm) = some (tr e)) →
    alookup q.feats (ft, nm) = some (tr e) := by
  intro sel
  induction sel with
  | nil =>
    intro acc q h hd
    cases h
    cases hd with
    | inl hmem => simp at hmem
    | inr hacc => exact hacc
  | cons k ks ih =>
    intro acc q h hd
    unfold copyLoop at h
    cases hs : copyStep valid tr src acc k with
    | err e2 =>
      rw [hs] at h
      exact Res.noConfusion h
    | ok q2 =>
      rw [hs] at h
      by_cases hk : k = CKey.entryK ft nm
      · subst hk
        exact ih q2 q h (Or.inr (copyStep_sets valid tr src acc q2 ft nm e hsrc hs))
      · cases hd with
        | inl hmem =>
          cases List.mem_cons.1 hmem with
          | inl he => exact absurd he.symm hk
          | inr hks => exact ih q2 q h (Or.inl hks)
        | inr hacc =>
          refine ih q2 q h (Or.inr ?_)
          rw [copyStep_preserves valid tr src acc q2 ft nm k hk hs]
          exact hacc

/-- C6: a successful shallow copy shares value identity with the
original for every selected realized entry (the very same object,
address included) and leaves placeholders un-materialized
(the same wrapper, memo untouched); a successful deep copy yields
for every selected realized entry an equal but non-identical value
(same payload, fresh address), and for a placeholder duplicates only
the wrapper and its already-resolved memo payload (payload equal,
address fresh) while sharing the collaborator reference; in both
cases the source box is copied into the new container regardless of
the feature selection. -/
theorem C6_copy_semantics (valid : FeatureType → Nat → Bool) (src : CPatch)
    (sel : List CKey) (shift : Nat) (hsh : shift ≠ 0) :
    (∀ q, src.copyShallow valid sel = .ok q → q.bbox = src.bbox) ∧
    (∀ q ft nm v, src.copyShallow valid sel = .ok q → CKey.entryK ft nm ∈ sel →
      alookup src.feats (ft, nm) = some (.realized v) →
      alookup q.feats (ft, nm) = some (.realized v)) ∧
    (∀ q ft nm io, src.copyShallow valid sel = .ok q → CKey.entryK ft nm ∈ sel →
      alookup src.feats (ft, nm) = some (.deferred io) →
      alookup q.feats (ft, nm) = some (.deferred io)) ∧
    (∀ q, src.copyDeep valid sel shift = .ok q → q.bbox = src.bbox) ∧
    (∀ q ft nm v, src.copyDeep valid sel shift = .ok q → CKey.entryK ft nm ∈ sel →
      alookup src.feats (ft, nm) = some (.realized v) →
      alookup q.feats (ft, nm) = some (.realized ⟨v.addr + shift, v.payload⟩) ∧
        v.addr + shift ≠ v.addr) ∧
    (∀ q ft nm io, src.copyDeep valid sel shift = .ok q → CKey.entryK ft nm ∈ sel →
      alookup src.feats (ft, nm) = some (.deferred io) →
      alookup q.feats (ft, nm) =
        some (.deferred ⟨io.collabRef, io.loadedValue.map (CVal.shiftBy shift)⟩) ∧
      (∀ m, io.loadedValue = some m →
        io.loadedValue.map (CVal.shiftBy shift) = some ⟨m.addr + shift, m.payload⟩ ∧
          m.addr + shift ≠ m.addr)) := by
  have haddr : ∀ a : Nat, a + shift ≠ a := by
    intro a he
    exact hsh (Nat.add_left_cancel ((Nat.add_zero a).symm ▸ he : a + shift = a + 0))
  refine ⟨?_, ?_, ?_, ?_, ?_, ?_⟩
  · intro q h
    exact copyLoop_bbox valid shallowTransform src sel ⟨src.bbox, [], []⟩ q rfl h
  · intro q ft nm v h hmem hsrc
    exact copyLoop_lookup valid shallowTransform src ft nm (.realized v) hsrc sel
      ⟨src.bbox, [], []⟩ q h (Or.inl hmem)
  · intro q ft nm io h hmem hsrc
    exact copyLoop_lookup valid shallowTransform src ft nm (.deferred io) hsrc sel
      ⟨src.bbox, [], []⟩ q h (Or.inl hmem)
  · intro q h
    exact copyLoop_bbox valid (deepTransform shift) src sel ⟨src.bbox, [], []⟩ q rfl h
  · intro q ft nm v h hmem hsrc
    refine ⟨?_, haddr v.addr⟩
    exact copyLoop_lookup valid (deepTransform shift) src ft nm (.realized v) hsrc sel
      ⟨src.bbox, [], []⟩ q h (Or.inl hmem)
  · intro q ft nm io h hmem hsrc
    refine ⟨?_, ?_⟩
    · exact copyLoop_lookup valid (deepTransform shift) src ft nm (.deferred io) hsrc sel
        ⟨src.bbox, [], []⟩ q h (Or.inl hmem)
    · intro m hm
      rw [hm]
      exact ⟨rfl, haddr m.addr⟩

/-- Concrete container for the copy instance: one realized entry
with identity 100, one placeholder with a resolved memo at identity
200, a box, one timestamp. -/
def c6src : CPatch :=
  ⟨some ⟨5⟩, [1],
   [((.DATA, "a"), .realized ⟨100, 42⟩),
    ((.MASK, "b"), .deferred ⟨3, some ⟨200, 9⟩⟩)]⟩

/-- The full feature selection of `c6src`. -/
def c6sel : List CKey := [.boxK, .tsK, .entryK .DATA "a", .entryK .MASK "b"]

/-- The expected deep copy of `c6src` under the address shift 1000. -/
def c6deep : CPatch :=
  ⟨some ⟨5⟩, [1],
   [((.DATA, "a"), .realized ⟨1100, 42⟩),
    ((.MASK, "b"), .deferred ⟨3, some ⟨1200, 9⟩⟩)]⟩

theorem C6_witness :
    ((1000 : Nat) ≠ 0 ∧
     c6src.copyShallow (fun _ _ => true) c6sel = .ok c6src ∧
     c6src.copyDeep (fun _ _ => true) c6sel 1000 = .ok c6deep ∧
     CKey.entryK .DATA "a" ∈ c6sel ∧
     alookup c6src.feats (.DATA, "a") = some (.realized ⟨100, 42⟩)) ∧
    (alookup c6src.feats (.DATA, "a") = some (.realized ⟨100, 42⟩) ∧
     (alookup c6deep.feats (.DATA, "a") = some (.realized ⟨100 + 1000, 42⟩) ∧
      (100 : Nat) + 1000 ≠ 100)) :=
  ⟨⟨by decide, by decide, by decide, by decide, by decide⟩,
   (C6_copy_semantics (fun _ _ => true) c6src c6sel 1000 (by decide)).2.1 c6src
     .DATA "a" ⟨100, 42⟩ (by decide) (by decide) (by decide),
   (C6_copy_semantics (fun _ _ => true) c6src c6sel 1000 (by decide)).2.2.2.2.1 c6deep
     .DATA "a" ⟨100, 42⟩ (by decide) (by decide) (by decide)⟩

theorem insSortBy_sorted_id (le : α → α → Bool) :
    ∀ l : List α, List.Chain' (fun a b => le a b = true) l → insSortBy le l = l := by
  intro l
  induction l with
  | nil =>
    intro _
    rfl
  | cons x xs ih =>
    intro h
    unfold insSortBy
    rw [ih (List.Chain'.tail h)]
    cases xs with
    | nil => rfl
    | cons y ys =>
      have hxy : le x y = true := (List.chain'_cons.1 h).1
      simp [insSortedBy, hxy]

theorem groupRuns_distinct :
    ∀ l : List (Timestamp × List Int), List.Chain' (fun a b => a.1 ≠ b.1) l →
    groupRuns l = l.map (fun x => (x.1, [x.2])) := by
  intro l
  induction l with
  | nil =>
    intro _
    rfl
  | cons a rest ih =>
    intro h
    obtain ⟨t, c⟩ := a
    unfold groupRuns
    rw [ih (List.Chain'.tail h)]
    cases rest with
    | nil => rfl
    | cons b rs =>
      have hne : t ≠ b.1 := (List.chain'_cons.1 h).1
      simp [List.map_cons, hne]

theorem reduceNone_singletons :
    ∀ l : List (Timestamp × List Int),
    reduceNoneGroups (l.map (fun x => (x.1, [x.2]))) = .ok (l.map Prod.snd) := by
  intro l
  induction l with
  | nil => rfl
  | cons a rest ih =>
    obtain ⟨t, c⟩ := a
    simp only [List.map_cons]
    unfold reduceNoneGroups
    rw [ih]
    simp

theorem chunks_flatten (s : Nat) :
    ∀ (n : Nat) (l : List Int), l.length = n * s →
    ((List.range n).map (fun i => (l.drop (i * s)).take s)).flatten = l := by
  intro n
  induction n with
  | zero =>
    intro l hl
    simp at hl
    simp [hl]
  | succ m ih =>
    intro l hl
    rw [List.range_succ_eq_map, List.map_cons, List.flatten_cons]
    have hmap : (List.map Nat.succ (List.range m)).map (fun i => (l.drop (i * s)).take s) =
        (List.range m).map (fun i => ((l.drop s).drop (i * s)).take s) := by
      rw [List.map_map]
      apply List.map_congr_left
      intro i _
      have harith : Nat.succ i * s = s + i * s := by
        rw [Nat.succ_mul, Nat.add_comm]
      simp only [Function.comp]
      rw [harith, ← List.drop_drop]
    have hlen : (l.drop s).length = m * s := by
      rw [List.length_drop, hl, Nat.succ_mul, Nat.add_sub_cancel]
    rw [hmap, ih (l.drop s) hlen]
    simp [Nat.zero_mul, List.take_append_drop]

theorem alookup_of_mem_nodup [DecidableEq κ] (l : List (κ × β)) (k : κ) (v : β)
    (hnd : (l.map Prod.fst).Nodup) (hm : (k, v) ∈ l) : alookup l k = some v := by
  induction l with
  | nil => simp at hm
  | cons hd rest ih =>
    obtain ⟨k0, v0⟩ := hd
    simp only [List.map_cons, List.nodup_cons] at hnd
    cases List.mem_cons.1 hm with
    | inl he =>
      rw [Prod.mk.injEq] at he
      rw [he.1, he.2]
      simp [alookup]
    | inr hrest =>
      have hk : ¬(k0 = k) := by
        intro he
        subst he
        exact hnd.1 (List.mem_map.2 ⟨(k0, v), hrest, rfl⟩)
      simp only [alookup, if_neg hk]
      exact ih hnd.2 hrest

theorem parseNumpy_isSome_eq (ft : FeatureType) (a : NDArray) (nm : String)
    (h : (parseNumpy ft a nm).isSome = true) : parseNumpy ft a nm = some a := by
  cases hp : parseNumpy ft a nm with
  | none =>
    rw [hp] at h
    simp at h
  | some b =>
    rw [parseNumpy_ok ft a nm b hp]

theorem parseNumpy_some_rank (ft : FeatureType) (a : NDArray) (nm : String) (b : NDArray)
    (h : parseNumpy ft a nm = some b) : ft.ndim = some a.ndimA := by
  unfold parseNumpy at h
  cases hn : ft.ndim with
  | none =>
    rw [hn] at h
    exact Option.noConfusion h
  | some r =>
    rw [hn] at h
    dsimp only at h
    by_cases h1 : a.ndimA ≠ r
    · rw [if_pos h1] at h
      exact Option.noConfusion h
    · rw [not_ne_iff.1 h1]

theorem mergeTemporalEntry_single (p : EOPatch) (da : EOPatch → FeatureDict NDArray)
    (nm : String) (a : NDArray)
    (hl : alookup (da p).entries nm = some (.realized a))
    (hchain : List.Chain' (fun x y : Timestamp => x < y) p.timestamps)
    (hlen : a.shape.headD 0 = p.timestamps.length)
    (hwf : a.shape.prod = a.data.length)
    (hrank : a.shape.length ≠ 0) :
    mergeTemporalEntry [p] da nm = .ok a := by
  have hcon : gatherContribs [p] da nm = [(p, EntryVal.realized a)] := by
    simp [gatherContribs, hl]
  have hchunks_len : a.timeChunks.length = p.timestamps.length := by
    unfold NDArray.timeChunks
    rw [List.length_map, List.length_range]
    exact hlen
  have hfst : (p.timestamps.zip a.timeChunks).map Prod.fst = p.timestamps :=
    List.map_fst_zip p.timestamps a.timeChunks (Nat.le_of_eq hchunks_len.symm)
  have hchainz : List.Chain' (fun x y : Timestamp × List Int => x.1 < y.1)
      (p.timestamps.zip a.timeChunks) := by
    have h2 := hchain
    rw [← hfst] at h2
    exact (List.chain'_map Prod.fst).1 h2
  have hsnd : (p.timestamps.zip a.timeChunks).map Prod.snd = a.timeChunks :=
    List.map_snd_zip p.timestamps a.timeChunks (Nat.le_of_eq hchunks_len)
  have hchainle : List.Chain' (fun x y : Timestamp × List Int =>
      (fun u w : Timestamp × List Int => decide (u.1 ≤ w.1)) x y = true)
      (p.timestamps.zip a.timeChunks) := by
    refine List.Chain'.imp ?_ hchainz
    intro x y hxy
    exact decide_eq_true (Nat.le_of_lt hxy)
  have hchainne : List.Chain' (fun x y : Timestamp × List Int => x.1 ≠ y.1)
      (p.timestamps.zip a.timeChunks) := by
    refine List.Chain'.imp ?_ hchainz
    intro x y hxy
    exact Nat.ne_of_lt hxy
  have hpairs : ([(p, EntryVal.realized a)].filterMap (fun pe =>
      match pe.2 with
      | EntryVal.realized a2 => some (pe.1.timestamps.zip a2.timeChunks)
      | EntryVal.deferred _ => none)).flatten = p.timestamps.zip a.timeChunks := by
    simp
  unfold mergeTemporalEntry
  rw [hcon]
  dsimp only
  rw [hpairs]
  rw [insSortBy_sorted_id (fun u w : Timestamp × List Int => decide (u.1 ≤ w.1))
    (p.timestamps.zip a.timeChunks) hchainle]
  rw [groupRuns_distinct (p.timestamps.zip a.timeChunks) hchainne]
  rw [reduceNone_singletons]
  dsimp only
  rw [hsnd]
  cases hs : a.shape with
  | nil =>
    refine absurd ?_ hrank
    rw [hs]
    rfl
  | cons n rest =>
    have hclen : a.timeChunks.length = n := by
      unfold NDArray.timeChunks
      rw [hs]
      simp
    have hflat : a.timeChunks.flatten = a.data := by
      unfold NDArray.timeChunks NDArray.chunkAt NDArray.stride
      rw [hs]
      simp only [List.headD_cons, List.drop_succ_cons, List.drop_zero]
      refine chunks_flatten rest.prod n a.data ?_
      rw [← hwf, hs]
      exact List.prod_cons
    rw [hclen, hflat]
    simp only [hs, List.drop_succ_cons, List.drop_zero]
    have heta : (⟨a.dtype, n :: rest, a.data⟩ : NDArray) = a := by
      rw [← hs]
    rw [heta]
    rfl

theorem mergeTimelessEntry_single (p : EOPatch) (da : EOPatch → FeatureDict NDArray)
    (nm : String) (a : NDArray)
    (hl : alookup (da p).entries nm = some (.realized a)) :
    mergeTimelessEntry [p] da nm = .ok a := by
  unfold mergeTimelessEntry
  have hfm : [p].filterMap (fun p2 => alookup (da p2).entries nm) =
      [EntryVal.realized a] := by
    simp [hl]
  rw [hfm]
  rfl

theorem mergeVectorEntry_single (p : EOPatch) (da : EOPatch → FeatureDict GeoDf)
    (nm : String) (g : GeoDf)
    (hl : alookup (da p).entries nm = some (.realized g)) :
    mergeVectorEntry [p] da nm = .ok g := by
  unfold mergeVectorEntry
  have hfm : [p].filterMap (fun p2 => alookup (da p2).entries nm) =
      [EntryVal.realized g] := by
    simp [hl]
  rw [hfm]
  show Res.ok ⟨g.columns, ([g].map GeoDf.rows).flatten⟩ = Res.ok g
  have : ([g].map GeoDf.rows).flatten = g.rows := by
    simp
  rw [this]

theorem mergeMetaEntry_single (p : EOPatch) (da : EOPatch → FeatureDict JsonVal)
    (nm : String) (j : JsonVal)
    (hl : alookup (da p).entries nm = some (.realized j)) :
    mergeMetaEntry [p] da nm = .ok j := by
  unfold mergeMetaEntry
  have hfm : [p].filterMap (fun p2 => alookup (da p2).entries nm) =
      [EntryVal.realized j] := by
    simp [hl]
  rw [hfm]
  rfl

theorem mergeBBoxes_single (p : EOPatch) : mergeBBoxes [p] = .ok p.bbox := by
  unfold mergeBBoxes
  cases hb : p.bbox with
  | none => simp [hb]
  | some b => simp [hb]

theorem assembleDict_id {α : Type} (parse : α → String → Option α) (ft : FeatureType)
    (one : String → Res α) :
    ∀ sub : List (String × EntryVal α),
    (∀ nm e, (nm, e) ∈ sub → ∃ v, e = .realized v ∧ one nm = .ok v ∧
        parse v nm = some v ∧ checkName nm = true) →
    assembleDict parse ft one (sub.map Prod.fst) = .ok sub := by
  intro sub
  induction sub with
  | nil =>
    intro _
    rfl
  | cons hd rest ih =>
    intro hall
    obtain ⟨nm, e⟩ := hd
    obtain ⟨v, he, hone, hparse, hname⟩ := hall nm e (List.mem_cons_self (nm, e) rest)
    subst he
    rw [List.map_cons]
    unfold assembleDict
    rw [hone]
    dsimp only
    rw [hparse]
    dsimp only
    rw [if_pos hname]
    rw [ih (fun nm2 e2 hm => hall nm2 e2 (List.mem_cons_of_mem (nm, EntryVal.realized v) hm))]

/-- Well-formedness of one temporal array entry for the merge
fixed-point statement: realized, self-parsing (correct rank and
dtype), valid name, time-axis length matching the timestamp count,
flat data matching the shape. -/
def entryOkTemporalB (ft : FeatureType) (tlen : Nat) : String × EntryVal NDArray → Bool
  | (nm, .realized a) =>
    (parseNumpy ft a nm == some a) && checkName nm &&
    (a.shape.headD 0 == tlen) && (a.shape.prod == a.data.length) &&
    decide (a.shape.length ≠ 0)
  | (_, .deferred _) => false

/-- Well-formedness of one timeless array entry. -/
def entryOkTimelessB (ft : FeatureType) : String × EntryVal NDArray → Bool
  | (nm, .realized a) => (parseNumpy ft a nm == some a) && checkName nm
  | (_, .deferred _) => false

/-- Well-formedness of one vector entry. -/
def entryOkGeoB (ft : FeatureType) : String × EntryVal GeoDf → Bool
  | (nm, .realized g) => (parseGeo ft g nm == some g) && checkName nm
  | (_, .deferred _) => false

/-- Well-formedness of one metadata entry. -/
def entryOkJsonB : String × EntryVal JsonVal → Bool
  | (nm, .realized _) => checkName nm
  | (_, .deferred _) => false

/-- Well-formedness of a temporal array collection: correctly
tagged, duplicate-free names, all entries well-formed. -/
abbrev temporalDictOk (p : EOPatch) (ft : FeatureType) (d : FeatureDict NDArray) : Prop :=
  d.featureType = ft ∧ (d.entries.map Prod.fst).Nodup ∧
  d.entries.all (entryOkTemporalB ft p.timestamps.length) = true

/-- Well-formedness of a timeless array collection. -/
abbrev timelessDictOk (ft : FeatureType) (d : FeatureDict NDArray) : Prop :=
  d.featureType = ft ∧ (d.entries.map Prod.fst).Nodup ∧
  d.entries.all (entryOkTimelessB ft) = true

/-- Well-formedness of a vector collection. -/
abbrev vectorDictOk (ft : FeatureType) (d : FeatureDict GeoDf) : Prop :=
  d.featureType = ft ∧ (d.entries.map Prod.fst).Nodup ∧
  d.entries.all (entryOkGeoB ft) = true

/-- Well-formedness of the metadata collection. -/
abbrev metaDictOk (d : FeatureDict JsonVal) : Prop :=
  d.featureType = .META_INFO ∧ (d.entries.map Prod.fst).Nodup ∧
  d.entries.all entryOkJsonB = true

/-- Strict increase of a timestamp sequence, as an executable
check. -/
def chainLtB : List Timestamp → Bool
  | [] => true
  | [_] => true
  | x :: y :: rest => decide (x < y) && chainLtB (y :: rest)

theorem chainLtB_chain' : ∀ l : List Timestamp, chainLtB l = true →
    List.Chain' (fun x y : Timestamp => x < y) l := by
  intro l
  induction l with
  | nil =>
    intro _
    exact List.chain'_nil
  | cons x rest ih =>
    intro h
    cases rest with
    | nil => exact List.chain'_singleton x
    | cons y rs =>
      simp only [chainLtB, Bool.and_eq_true, decide_eq_true_eq] at h
      exact List.chain'_cons.2 ⟨h.1, ih h.2⟩

theorem mergedNames_single (p : EOPatch) (da : EOPatch → FeatureDict α)
    (hnd : ((da p).entries.map Prod.fst).Nodup) :
    mergedNames [p] da = (da p).entries.map Prod.fst := by
  unfold mergedNames
  simp only [List.map_cons, List.map_nil, List.flatten_cons, List.flatten_nil,
    List.append_nil]
  exact List.dedup_eq_self.2 hnd

theorem mergeDictN_single_temporal (p : EOPatch) (ft : FeatureType)
    (da : EOPatch → FeatureDict NDArray) (hok : temporalDictOk p ft (da p))
    (hchain : List.Chain' (fun x y : Timestamp => x < y) p.timestamps) :
    mergeDictN [p] ft da true = .ok (da p) := by
  obtain ⟨htag, hnd, hall⟩ := hok
  have hbody : ∀ nm e, (nm, e) ∈ (da p).entries → ∃ v, e = .realized v ∧
      mergeTemporalEntry [p] da nm = .ok v ∧ parseNumpy ft v nm = some v ∧
      checkName nm = true := by
    intro nm e hm
    have hek := List.all_eq_true.1 hall (nm, e) hm
    cases e with
    | deferred io => simp [entryOkTemporalB] at hek
    | realized a =>
      simp only [entryOkTemporalB, Bool.and_eq_true, beq_iff_eq, decide_eq_true_eq] at hek
      obtain ⟨⟨⟨⟨hparse, hname⟩, hlen⟩, hwf⟩, hrank⟩ := hek
      exact ⟨a, rfl, mergeTemporalEntry_single p da nm a
        (alookup_of_mem_nodup (da p).entries nm (.realized a) hnd hm) hchain hlen hwf hrank,
        hparse, hname⟩
  have hasm := assembleDict_id (parseNumpy ft) ft (mergeTemporalEntry [p] da)
    (da p).entries hbody
  unfold mergeDictN
  dsimp only
  rw [if_pos rfl]
  rw [mergedNames_single p da hnd, hasm]
  dsimp only
  rw [show (⟨ft, (da p).entries⟩ : FeatureDict NDArray) = da p from by rw [← htag]]

theorem mergeDictN_single_timeless (p : EOPatch) (ft : FeatureType)
    (da : EOPatch → FeatureDict NDArray) (hok : timelessDictOk ft (da p)) :
    mergeDictN [p] ft da false = .ok (da p) := by
  obtain ⟨htag, hnd, hall⟩ := hok
  have hbody : ∀ nm e, (nm, e) ∈ (da p).entries → ∃ v, e = .realized v ∧
      mergeTimelessEntry [p] da nm = .ok v ∧ parseNumpy ft v nm = some v ∧
      checkName nm = true := by
    intro nm e hm
    have hek := List.all_eq_true.1 hall (nm, e) hm
    cases e with
    | deferred io => simp [entryOkTimelessB] at hek
    | realized a =>
      simp only [entryOkTimelessB, Bool.and_eq_true, beq_iff_eq] at hek
      exact ⟨a, rfl, mergeTimelessEntry_single p da nm a
        (alookup_of_mem_nodup (da p).entries nm (.realized a) hnd hm), hek.1, hek.2⟩
  have hasm := assembleDict_id (parseNumpy ft) ft (mergeTimelessEntry [p] da)
    (da p).entries hbody
  unfold mergeDictN
  dsimp only
  rw [if_neg Bool.false_ne_true]
  rw [mergedNames_single p da hnd, hasm]
  dsimp only
  rw [show (⟨ft, (da p).entries⟩ : FeatureDict NDArray) = da p from by rw [← htag]]

theorem mergeDictG_single (p : EOPatch) (ft : FeatureType)
    (da : EOPatch → FeatureDict GeoDf) (hok : vectorDictOk ft (da p)) :
    mergeDictG [p] ft da = .ok (da p) := by
  obtain ⟨htag, hnd, hall⟩ := hok
  have hbody : ∀ nm e, (nm, e) ∈ (da p).entries → ∃ v, e = .realized v ∧
      mergeVectorEntry [p] da nm = .ok v ∧ parseGeo ft v nm = some v ∧
      checkName nm = true := by
    intro nm e hm
    have hek := List.all_eq_true.1 hall (nm, e) hm
    cases e with
    | deferred io => simp [entryOkGeoB] at hek
    | realized g =>
      simp only [entryOkGeoB, Bool.and_eq_true, beq_iff_eq] at hek
      exact ⟨g, rfl, mergeVectorEntry_single p da nm g
        (alookup_of_mem_nodup (da p).entries nm (.realized g) hnd hm), hek.1, hek.2⟩
  have hasm := assembleDict_id (parseGeo ft) ft (mergeVectorEntry [p] da)
    (da p).entries hbody
  unfold mergeDictG
  rw [mergedNames_single p da hnd, hasm]
  dsimp only
  rw [show (⟨ft, (da p).entries⟩ : FeatureDict GeoDf) = da p from by rw [← htag]]

theorem mergeDictJ_single (p : EOPatch) (da : EOPatch → FeatureDict JsonVal)
    (hok : metaDictOk (da p)) :
    mergeDictJ [p] .META_INFO da = .ok (da p) := by
  obtain ⟨htag, hnd, hall⟩ := hok
  have hbody : ∀ nm e, (nm, e) ∈ (da p).entries → ∃ v, e = .realized v ∧
      mergeMetaEntry [p] da nm = .ok v ∧ parseJson .META_INFO v nm = some v ∧
      checkName nm = true := by
    intro nm e hm
    have hek := List.all_eq_true.1 hall (nm, e) hm
    cases e with
    | deferred io => simp [entryOkJsonB] at hek
    | realized j =>
      exact ⟨j, rfl, mergeMetaEntry_single p da nm j
        (alookup_of_mem_nodup (da p).entries nm (.realized j) hnd hm), rfl, hek⟩
  have hasm := assembleDict_id (parseJson .META_INFO) .META_INFO (mergeMetaEntry [p] da)
    (da p).entries hbody
  unfold mergeDictJ
  rw [mergedNames_single p da hnd, hasm]
  dsimp only
  rw [show (⟨FeatureType.META_INFO, (da p).entries⟩ : FeatureDict JsonVal) = da p from by
    rw [← htag]]

/-- C7 (amended): merging a single well-formed container whose
timestamp sequence is strictly increasing and whose temporal arrays
have time-axis length equal to the timestamp count yields the
container itself on every feature. -/
theorem C7_merge_single_sorted (p : EOPatch)
    (htsB : chainLtB p.timestamps = true)
    (hD : temporalDictOk p .DATA p.data)
    (hM : temporalDictOk p .MASK p.mask)
    (hS : temporalDictOk p .SCALAR p.scalar)
    (hL : temporalDictOk p .LABEL p.label)
    (hV : vectorDictOk .VECTOR p.vector)
    (hDT : timelessDictOk .DATA_TIMELESS p.data_timeless)
    (hMT : timelessDictOk .MASK_TIMELESS p.mask_timeless)
    (hST : timelessDictOk .SCALAR_TIMELESS p.scalar_timeless)
    (hLT : timelessDictOk .LABEL_TIMELESS p.label_timeless)
    (hVT : vectorDictOk .VECTOR_TIMELESS p.vector_timeless)
    (hMI : metaDictOk p.meta_info) :
    mergeEOPatches [p] = .ok p := by
  have hts := chainLtB_chain' p.timestamps htsB
  have hsort : insSortBy (fun x y => x ≤ y)
      (([p].map (fun p2 => p2.timestamps)).flatten) = p.timestamps := by
    have hflat : ([p].map (fun p2 => p2.timestamps)).flatten = p.timestamps := by
      simp
    rw [hflat]
    refine insSortBy_sorted_id _ _ ?_
    refine List.Chain'.imp ?_ hts
    intro x y hxy
    exact decide_eq_true (Nat.le_of_lt hxy)
  unfold mergeEOPatches
  rw [mergeBBoxes_single p]
  dsimp only
  rw [mergeDictN_single_temporal p .DATA (fun p2 => p2.data) hD hts]
  dsimp only
  rw [mergeDictN_single_temporal p .MASK (fun p2 => p2.mask) hM hts]
  dsimp only
  rw [mergeDictN_single_temporal p .SCALAR (fun p2 => p2.scalar) hS hts]
  dsimp only
  rw [mergeDictN_single_temporal p .LABEL (fun p2 => p2.label) hL hts]
  dsimp only
  rw [mergeDictG_single p .VECTOR (fun p2 => p2.vector) hV]
  dsimp only
  rw [mergeDictN_single_timeless p .DATA_TIMELESS (fun p2 => p2.data_timeless) hDT]
  dsimp only
  rw [mergeDictN_single_timeless p .MASK_TIMELESS (fun p2 => p2.mask_timeless) hMT]
  dsimp only
  rw [mergeDictN_single_timeless p .SCALAR_TIMELESS (fun p2 => p2.scalar_timeless) hST]
  dsimp only
  rw [mergeDictN_single_timeless p .LABEL_TIMELESS (fun p2 => p2.label_timeless) hLT]
  dsimp only
  rw [mergeDictG_single p .VECTOR_TIMELESS (fun p2 => p2.vector_timeless) hVT]
  dsimp only
  rw [mergeDictJ_single p (fun p2 => p2.meta_info) hMI]
  dsimp only
  rw [hsort]

/-- A container whose timestamp sequence is not sorted. -/
def c7bad : EOPatch := { patch0 with timestamps := [2, 1] }

/-- C7 counterexample: merging the single container `c7bad` (all
features selected, default policies) does not return a container
equal to `c7bad` — the merged timestamp sequence is the sorted
`[1, 2]` while `c7bad` holds `[2, 1]`. -/
theorem C7_counterexample :
    mergeEOPatches [c7bad] = .ok { c7bad with timestamps := [1, 2] } ∧
    mergeEOPatches [c7bad] ≠ .ok c7bad ∧
    c7bad.timestamps = [2, 1] := by
  refine ⟨by decide, by decide, rfl⟩

/-- A well-formed container with strictly increasing timestamps and
one entry in a representative collection of each family. -/
def c7good : EOPatch :=
  { patch0 with
      data := ⟨.DATA, [("d", .realized ⟨.floatT, [2, 1, 1, 1], [10, 30]⟩)]⟩,
      scalar := ⟨.SCALAR, [("s", .realized ⟨.floatT, [2, 3], [1, 2, 3, 4, 5, 6]⟩)]⟩,
      vector := ⟨.VECTOR, [("v", .realized ⟨["TIMESTAMP", "g"], [[1, 7], [2, 8]]⟩)]⟩,
      data_timeless := ⟨.DATA_TIMELESS, [("t", .realized ⟨.floatT, [1, 1, 2], [4, 5]⟩)]⟩,
      meta_info := ⟨.META_INFO, [("m", .realized 3)]⟩,
      timestamps := [1, 2] }

theorem C7_witness :
    (chainLtB c7good.timestamps = true ∧
     temporalDictOk c7good .DATA c7good.data ∧
     temporalDictOk c7good .SCALAR c7good.scalar ∧
     vectorDictOk .VECTOR c7good.vector ∧
     timelessDictOk .DATA_TIMELESS c7good.data_timeless ∧
     metaDictOk c7good.meta_info) ∧
    mergeEOPatches [c7good] = .ok c7good :=
  ⟨⟨by decide, by decide, by decide, by decide, by decide, by decide⟩,
   C7_merge_single_sorted c7good (by decide) (by decide) (by decide) (by decide)
     (by decide) (by decide) (by decide) (by decide) (by decide) (by decide)
     (by decide) (by decide)⟩

/-- A container with two DATA entries, for the deletion instance. -/
def c5patch : EOPatch :=
  { patch0 with
      data := ⟨.DATA, [("a", .realized ⟨.floatT, [1, 1, 1, 1], [0]⟩),
                       ("b", .realized ⟨.floatT, [1, 1, 1, 1], [0]⟩)]⟩ }

/-- `c5patch` after deleting the (DATA, "a") entry. -/
def c5res : EOPatch :=
  { c5patch with data := ⟨.DATA, [("b", .realized ⟨.floatT, [1, 1, 1, 1], [0]⟩)]⟩ }

theorem C5_witness :
    ((FeatureType.DATA ≠ FeatureType.BBOX) ∧ (FeatureType.DATA ≠ FeatureType.TIMESTAMPS) ∧
     (c5patch.viewOf .DATA).keys.Nodup ∧
     c5patch.delPair .DATA "a" = .ok c5res) ∧
    (c5res.viewOf .DATA).lookupName "a" = none :=
  ⟨⟨by decide, by decide, by decide, by decide⟩,
   ((C5_delete_semantics c5patch).2.2.2 .DATA "a" c5res (by decide) (by decide)
     (by decide) (by decide)).1⟩
